import Mathlib

/-!
Verification of the blsforme boot-management library.

This file is a shallow embedding of the core of the `blsforme` repository
(kernel discovery, entry naming, loader-entry generation, boot-environment
resolution, device-chain probing, and the systemd-boot synchronisation logic)
together with theorems settling the specification's claims about it.

Modelling conventions:
- Rust `String`s are embedded as `List Char` (`Str`); all relevant inputs are
  ASCII, where Rust's byte indices coincide with character indices, and Rust's
  byte-lexicographic `Ord` coincides with code-point order.
- Filesystem paths are embedded as lists of components (`FilePath`); Rust's
  `Path::starts_with` / `Path::ends_with` are component-wise and map to list
  prefix/last-component tests. `Path::display` renders with `/` separators.
- Fallible Rust functions returning `Result` become `Except`; a Rust panic
  (out-of-bounds `split_at`, failed `assert!`) is a distinct error value.
- Host-OS effects (sysfs, efivars, GPT, the mount table) are oracles packaged
  in explicit structures; file writes are tracked as explicit events over an
  association-list filesystem.
-/

namespace Blsforme

/-- Rust strings, embedded as character lists so that every operation reduces
in the kernel (`decide`). -/
abbrev Str := List Char

/-- Filesystem paths as component lists (`a/b/c` is `[a, b, c]`). -/
abbrev FilePath := List Str

/-- Lexicographic `≤` on character lists: the embedding of Rust's `String`
ordering (byte order on valid UTF-8 equals code-point order). -/
def strLe : Str → Str → Bool
  | [], _ => true
  | _ :: _, [] => false
  | a :: as, b :: bs => if a = b then strLe as bs else decide (a < b)

/-- Rust `str::to_lowercase` restricted to the per-character case mapping
(adequate for ASCII inputs). -/
def lowerStr (s : Str) : Str := s.map Char.toLower

/-- Rust `Path::display().to_string()`: join components with `/`. -/
def renderPath : FilePath → Str
  | [] => []
  | [c] => c
  | c :: rest => c ++ '/' :: renderPath rest

/-- Rust `Path::file_name()`: the last component, if any. -/
def fileName (p : FilePath) : Option Str := p.getLast?

/-- Rust `str::contains(pattern)` (substring containment). -/
def containsSub (hay needle : Str) : Bool :=
  (List.range (hay.length + 1)).any fun i => needle.isPrefixOf (hay.drop i)

/-- Find the first occurrence of a character and split around it
(Rust `str::split_once(char)`). -/
def splitOnce (c : Char) (s : Str) : Option (Str × Str) :=
  match s.findIdx? (· == c) with
  | none => none
  | some i => some (s.take i, s.drop (i + 1))

/-! ## Data model (src/blsforme/src/lib.rs, kernel.rs, os_release.rs) -/

/-- The os-release fields the core reads (`os_release.rs` is consumed through
`name`, `id`, `version_id` and the optional `PRETTY_NAME`). -/
structure OsRelease where
  name : Str
  id : Str
  versionId : Str
  prettyName : Option Str
deriving DecidableEq, Repr

/-- A former identity entry of os-info.json (`former_identities: [{id}...]`). -/
structure FormerIdentity where
  id : Str
deriving DecidableEq, Repr

/-- The identity block of os-info.json that the core reads. -/
structure OsIdentity where
  id : Str
  name : Str
  display : Str
  formerIdentities : List FormerIdentity
deriving DecidableEq, Repr

/-- os-info.json metadata as consumed by the core (`metadata.identity`). -/
structure OsInfoData where
  identity : OsIdentity
deriving DecidableEq, Repr

/-- `Schema` — the kernel-naming convention (kernel.rs). -/
inductive Schema
  | legacy (osRelease : OsRelease) (ns : Str)
  | blsforme (osRelease : OsRelease)
  | osInfo (info : OsInfoData)
deriving DecidableEq, Repr

/-- `AuxiliaryKind` (kernel.rs). -/
inductive AuxiliaryKind
  | cmdline
  | initRd
  | systemMap
  | config
  | bootJson
deriving DecidableEq, Repr

/-- `AuxiliaryFile` (kernel.rs). -/
structure AuxiliaryFile where
  path : FilePath
  kind : AuxiliaryKind
deriving DecidableEq, Repr

/-- `Kernel` (kernel.rs). -/
structure Kernel where
  version : Str
  image : FilePath
  initrd : List AuxiliaryFile
  extras : List AuxiliaryFile
  variant : Option Str
deriving DecidableEq, Repr

/-- `Schema::os_name` (kernel.rs). -/
def Schema.osName : Schema → Str
  | .legacy osr _ => osr.name
  | .blsforme osr => osr.name
  | .osInfo info => info.identity.name

/-- `Schema::os_namespace` (kernel.rs). -/
def Schema.osNamespace : Schema → Str
  | .legacy _ ns => ns
  | .blsforme osr => osr.id
  | .osInfo info => info.identity.id

/-- `Schema::os_id` (kernel.rs). -/
def Schema.osId : Schema → Str
  | .legacy osr _ => osr.id
  | .blsforme osr => osr.id
  | .osInfo info => info.identity.id

/-- `Schema::os_display_name` (kernel.rs). -/
def Schema.osDisplayName : Schema → Option Str
  | .legacy osr _ => osr.prettyName
  | .blsforme osr => osr.prettyName
  | .osInfo info => some info.identity.display

/-- Structural monadic fold over `Except`, the embedding of a Rust `for` loop
whose body can fail (`?`): the first error aborts the loop. -/
def exceptFoldlM {ε σ α : Type} (f : σ → α → Except ε σ) : σ → List α → Except ε σ
  | s, [] => Except.ok s
  | s, x :: xs =>
    match f s x with
    | Except.error e => Except.error e
    | Except.ok s' => exceptFoldlM f s' xs

/-- Structural monadic map over `Except` (Rust `collect::<Result<Vec<_>, _>>`). -/
def exceptMapM {ε α β : Type} (f : α → Except ε β) : List α → Except ε (List β)
  | [] => Except.ok []
  | x :: xs =>
    match f x with
    | Except.error e => Except.error e
    | Except.ok y =>
      match exceptMapM f xs with
      | Except.error e => Except.error e
      | Except.ok ys => Except.ok (y :: ys)

/-! ## Kernel discovery (kernel.rs) -/

/-- Discovery failures: `panicked` models a Rust panic (out-of-bounds
`split_at`, failed `assert!`); `invalidFilesystem` is `Error::InvalidFilesystem`
(a path without a file name / non-UTF-8 name). -/
inductive KError
  | panicked
  | invalidFilesystem
deriving DecidableEq, Repr

/-- Auxiliary-file sort key: the lowercased rendered path
(`sort_by_key(|i| i.path.display().to_string().to_lowercase())`). -/
def auxKey (a : AuxiliaryFile) : Str := lowerStr (renderPath a.path)

/-- Ordering of auxiliary files used by the discovery sorts. -/
def auxLe (a b : AuxiliaryFile) : Prop := strLe (auxKey a) (auxKey b) = true

instance : DecidableRel auxLe := fun a b => by
  unfold auxLe; infer_instance

/-- Stable ascending sort by lowercased path (Rust's stable `sort_by_key`). -/
def sortAuxByLowerPath (l : List AuxiliaryFile) : List AuxiliaryFile :=
  List.insertionSort auxLe l

/-- `BTreeMap::insert` on a key-sorted association list of kernels keyed by
version (equal key replaces the value). -/
def kernelsInsert (key : Str) (k : Kernel) :
    List (Str × Kernel) → List (Str × Kernel)
  | [] => [(key, k)]
  | (key', k') :: rest =>
    if key = key' then (key, k) :: rest
    else if strLe key key' then (key, k) :: (key', k') :: rest
    else (key', k') :: kernelsInsert key k rest

/-- First phase of `Schema::legacy_kernels`: find candidate vmlinuz files whose
basename starts with the namespace, split off variant and full version, and key
them by full version. Mirrors the source's `split_at(namespace.len() + 1)`
(which panics when the basename is shorter), the `assert!(left.ends_with('.'))`
(which panics when the namespace is not followed by a dot), the
`split_once('.')` and the `rfind('-')` requirement. -/
def legacyFindKernels (ns : Str) (paths : List FilePath) :
    Except KError (List (Str × Kernel)) :=
  exceptFoldlM
    (fun acc p =>
      match fileName p with
      | none => pure acc
      | some fname =>
        if ns.isPrefixOf fname then
          if fname.length < ns.length + 1 then Except.error KError.panicked
          else
            let left := fname.take (ns.length + 1)
            let right := fname.drop (ns.length + 1)
            if left.getLast? == some '.' then
              match splitOnce '.' right with
              | some (variant, fullVersion) =>
                if fullVersion.contains '-' then
                  pure (kernelsInsert fullVersion
                    { version := fullVersion, image := p, initrd := [],
                      extras := [], variant := some variant } acc)
                else pure acc
              | none => pure acc
            else Except.error KError.panicked
        else pure acc)
    [] paths

/-- One iteration of the auxiliary-file scan of `Schema::legacy_kernels`: match
the path's basename against the literal auxiliary names computed for one kernel
and attach it to `initrd` or `extras`. -/
def legacyAuxStep (ns version : Str) (variant : Option Str) (kern : Kernel)
    (p : FilePath) : Except KError Kernel :=
  let variantStr : Str := match variant with
    | some v => '.' :: v
    | none => []
  let sysmapFile := "System.map-".data ++ version ++ variantStr
  let cmdlineFile := "cmdline-".data ++ version ++ variantStr
  let configFile := "config-".data ++ version ++ variantStr
  let indepInitrd := "initrd-".data ++ ns ++ ['.']
  let initrdFile := "initrd-".data ++ ns ++
    (match variant with
     | some v => '.' :: v ++ ['.']
     | none => []) ++ version
  match fileName p with
  | none => Except.error KError.invalidFilesystem
  | some fname =>
    let aux : Option AuxiliaryFile :=
      if fname == sysmapFile then some { path := p, kind := .systemMap }
      else if fname == cmdlineFile then some { path := p, kind := .cmdline }
      else if fname == configFile then some { path := p, kind := .config }
      else if fname == initrdFile then some { path := p, kind := .initRd }
      else if initrdFile.isPrefixOf fname then
        if !(fname == initrdFile) && containsSub fname initrdFile then
          some { path := p, kind := .initRd }
        else none
      else if indepInitrd.isPrefixOf fname then
        if (fname.drop indepInitrd.length).contains '.' then none
        else some { path := p, kind := .initRd }
      else none
    match aux with
    | some a =>
      if a.kind == AuxiliaryKind.initRd then
        Except.ok { kern with initrd := kern.initrd ++ [a] }
      else Except.ok { kern with extras := kern.extras ++ [a] }
    | none => Except.ok kern

/-- Second phase of `Schema::legacy_kernels`: for one discovered kernel, scan
the whole input set for auxiliary files by literal name and attach them, then
sort `initrd` and `extras` by lowercased path. -/
def legacyAuxFor (ns : Str) (paths : List FilePath) (version : Str) (k : Kernel) :
    Except KError Kernel :=
  match exceptFoldlM (legacyAuxStep ns version k.variant) k paths with
  | Except.error e => Except.error e
  | Except.ok k' =>
    Except.ok { k' with
      initrd := sortAuxByLowerPath k'.initrd,
      extras := sortAuxByLowerPath k'.extras }

/-- `Schema::legacy_kernels` (kernel.rs): discover legacy clr-boot-manager
style kernels; the result is in ascending version order (`BTreeMap` values). -/
def legacyKernels (ns : Str) (paths : List FilePath) :
    Except KError (List Kernel) :=
  match legacyFindKernels ns paths with
  | Except.error e => Except.error e
  | Except.ok found =>
    exceptMapM (fun vk : Str × Kernel => legacyAuxFor ns paths vk.1 vk.2) found

/-- Ordering of paths by their rendered form, used to model the `BTreeSet`
collection in `blsforme_kernels`. -/
def filePathLe (a b : FilePath) : Prop := strLe (renderPath a) (renderPath b) = true

instance : DecidableRel filePathLe := fun a b => by
  unfold filePathLe; infer_instance

/-- The `BTreeSet<PathBuf>` collection step of `blsforme_kernels`: a
deduplicated, deterministically ordered view of the input paths. -/
def blsformeAllPaths (paths : List FilePath) : List FilePath :=
  List.insertionSort filePathLe paths.dedup

/-- One step of the vmlinuz-collection of `blsforme_kernels`: record any path
whose last component is literally `vmlinuz`, keyed by its parent directory
name; a later path with the same version replaces the earlier one
(`HashMap` collect). -/
def blsformeImagesStep (acc : List (Str × Kernel)) (p : FilePath) :
    List (Str × Kernel) :=
  if p.getLast? == some "vmlinuz".data then
    match fileName p.dropLast with
    | some version =>
      if acc.any (fun e => e.1 == version) then
        acc.map (fun e =>
          if e.1 == version then
            (version, { version := version, image := p, initrd := [],
                        extras := [], variant := none })
          else e)
      else acc ++ [(version,
        { version := version, image := p, initrd := [], extras := [],
          variant := none })]
    | none => acc
  else acc

/-- The vmlinuz-collection of `blsforme_kernels` over the whole path set. -/
def blsformeImages (allPaths : List FilePath) : List (Str × Kernel) :=
  allPaths.foldl blsformeImagesStep []

/-- One iteration of the asset scan of `blsforme_kernels`: a path under the
same parent directory (and neither a `vmlinuz` nor the version directory
itself) is classified by basename and attached; the `initrd`/`extras` sorts run
inside the asset loop, as in the source. -/
def blsformeAuxStep (version : Str) (lepath : FilePath) (kern : Kernel)
    (p : FilePath) : Except KError Kernel :=
  if !(p.getLast? == some "vmlinuz".data) && lepath.isPrefixOf p &&
      !(p.getLast? == some version) then
    match fileName p with
    | none => Except.error KError.invalidFilesystem
    | some fname =>
      let aux : Option AuxiliaryFile :=
        if fname == "System.map".data then some { path := p, kind := .systemMap }
        else if fname == "boot.json".data then some { path := p, kind := .bootJson }
        else if fname == "config".data then some { path := p, kind := .config }
        else if ".initrd".data.isSuffixOf fname then some { path := p, kind := .initRd }
        else if ".cmdline".data.isSuffixOf fname then some { path := p, kind := .cmdline }
        else none
      let kern' := match aux with
        | some a =>
          if a.kind == AuxiliaryKind.initRd then
            { kern with initrd := kern.initrd ++ [a] }
          else { kern with extras := kern.extras ++ [a] }
        | none => kern
      Except.ok { kern' with
        initrd := sortAuxByLowerPath kern'.initrd,
        extras := sortAuxByLowerPath kern'.extras }
  else Except.ok kern

/-- Asset scan of `blsforme_kernels` for a single kernel over the whole
(de-duplicated) path set. -/
def blsformeAuxFor (allPaths : List FilePath) (version : Str) (k : Kernel) :
    Except KError Kernel :=
  exceptFoldlM (blsformeAuxStep version k.image.dropLast) k allPaths

/-- `Schema::blsforme_kernels` (kernel.rs): modern discovery keyed on literal
`vmlinuz` files inside version directories; the asset scan runs over the same
de-duplicated path set the images were collected from. -/
def blsformeKernels (paths : List FilePath) : Except KError (List Kernel) :=
  exceptMapM
    (fun vk : Str × Kernel => blsformeAuxFor (blsformeAllPaths paths) vk.1 vk.2)
    (blsformeImages (blsformeAllPaths paths))

/-- `Schema::discover_system_kernels` (kernel.rs). -/
def Schema.discoverSystemKernels : Schema → List FilePath → Except KError (List Kernel)
  | .legacy _ ns, paths => legacyKernels ns paths
  | .blsforme _, paths => blsformeKernels paths
  | .osInfo _, paths => blsformeKernels paths

/-- Sortedness of a kernel's auxiliary lists, the invariant claimed for every
discovered kernel. -/
def kernelAuxSorted (k : Kernel) : Prop :=
  k.initrd.Sorted auxLe ∧ k.extras.Sorted auxLe

/-! ## Entries (entry.rs) -/

/-- A decimal rendering of a `Nat` as characters. -/
def natToStr (n : Nat) : Str := Nat.toDigits 10 n

/-- Rust `format!` display of an `i32` (the opaque state id). -/
def intToStr : Int → Str
  | Int.ofNat n => natToStr n
  | Int.negSucc n => '-' :: natToStr (n + 1)

/-- `CmdlineEntry` (entry.rs): a named cmdline snippet. -/
structure CmdlineEntry where
  name : Str
  snippet : Str
deriving DecidableEq, Repr

/-- `Entry` (entry.rs): one kernel plus its cmdline snippets, optional opaque
state id and optional per-entry schema override. -/
structure Entry where
  kernel : Kernel
  sysroot : Option FilePath
  cmdline : List CmdlineEntry
  stateId : Option Int
  schema : Option Schema
deriving DecidableEq, Repr

/-- `Entry::new` (entry.rs). -/
def Entry.new (k : Kernel) : Entry :=
  { kernel := k, sysroot := none, cmdline := [], stateId := none, schema := none }

/-- `Entry::id` (entry.rs): the `.conf` basename stem. The per-entry schema
override is preferred over the passed schema; Legacy uses `os_release.name`,
the other variants use `os_id`; a present state id is appended. -/
def Entry.id (e : Entry) (schema : Schema) : Str :=
  let eff := e.schema.getD schema
  let idStr := match eff with
    | Schema.legacy osr _ => osr.name
    | _ => eff.osId
  match e.stateId with
  | some sid => idStr ++ '-' :: e.kernel.version ++ '-' :: intToStr sid
  | none => idStr ++ '-' :: e.kernel.version

/-- `Entry::installed_kernel_name` (entry.rs), as the relative on-boot path in
component form (the Rust string `"{version}/vmlinuz"` is the rendered form).
Legacy uses a flat `kernel-<basename>` name. -/
def Entry.installedKernelName (e : Entry) (schema : Schema) : Option FilePath :=
  let eff := e.schema.getD schema
  match eff with
  | Schema.legacy _ _ =>
    (fileName e.kernel.image).map (fun f => ["kernel-".data ++ f])
  | _ => some [e.kernel.version, "vmlinuz".data]

/-- `Entry::installed_asset_name` (entry.rs): only initrds are installed;
Legacy uses `initrd-<basename>`, the other variants `{version}/{basename}`. -/
def Entry.installedAssetName (e : Entry) (schema : Schema)
    (asset : AuxiliaryFile) : Option FilePath :=
  let eff := e.schema.getD schema
  match eff with
  | Schema.legacy _ _ =>
    match asset.kind with
    | AuxiliaryKind.initRd =>
      (fileName asset.path).map (fun f => ["initrd-".data ++ f])
    | _ => none
  | _ =>
    match fileName asset.path with
    | none => none
    | some f =>
      match asset.kind with
      | AuxiliaryKind.initRd => some [e.kernel.version, f]
      | _ => none

/-- The spec's "namespace-like" component of an entry id: `os_release.name`
for a Legacy schema, the os id otherwise. -/
def specNamespaceLike : Schema → Str
  | Schema.legacy osr _ => osr.name
  | s => s.osId

/-! ## Loader entry text (systemd_boot/mod.rs, generate_entry) -/

/-- `Loader::generate_entry` (systemd_boot/mod.rs): the text of one
systemd-boot loader entry. The initrd block prepends one newline and each
initrd line carries its own leading newline; with no initrds a single newline
stands in their place. The final `.expect` on the installed kernel name cannot
fire from `install` (which resolves it first); its impossible `none` case is
rendered as the empty name. -/
def generateEntry (schema : Schema) (assetDir : Str) (cmdline : Str)
    (e : Entry) : Str :=
  let eff := e.schema.getD schema
  let initrd : Str :=
    if e.kernel.initrd.isEmpty then ['\n']
    else
      '\n' :: (e.kernel.initrd.filterMap (fun asset =>
        (e.installedAssetName eff asset).map (fun n =>
          "\ninitrd /".data ++ assetDir ++ '/' :: renderPath n))).flatten
  let title :=
    match eff.osDisplayName with
    | some pretty => pretty ++ " (".data ++ e.kernel.version ++ [')']
    | none => eff.osName ++ " (".data ++ e.kernel.version ++ [')']
  let vmlinuz := renderPath ((e.installedKernelName eff).getD [])
  "title ".data ++ title ++ "\nlinux /".data ++ assetDir ++ '/' :: vmlinuz ++
    initrd ++ "\noptions ".data ++ cmdline ++ ['\n']

/-! ## Concrete entry and loader-text scenarios -/

/-- os-release of the AerynOS scenarios. -/
def osrAeryn : OsRelease :=
  { name := "AerynOS".data, id := "aerynos".data, versionId := "2025".data,
    prettyName := some "AerynOS".data }

/-- Blsforme schema of the AerynOS scenarios. -/
def schemaAeryn : Schema := Schema.blsforme osrAeryn

/-- Kernel 6.9.0 with a single initrd whose basename is `initrd`. -/
def kernel690 : Kernel :=
  { version := "6.9.0".data,
    image := ["usr".data, "lib".data, "kernel".data, "6.9.0".data, "vmlinuz".data],
    initrd := [{ path := ["usr".data, "lib".data, "kernel".data, "6.9.0".data,
                          "initrd".data],
                 kind := .initRd }],
    extras := [],
    variant := none }

/-- Kernel 6.9.0 with no initrd at all. -/
def kernel690NoInitrd : Kernel :=
  { version := "6.9.0".data,
    image := ["usr".data, "lib".data, "kernel".data, "6.9.0".data, "vmlinuz".data],
    initrd := [],
    extras := [],
    variant := none }

/-- Entry over `kernel690` with no overrides. -/
def entryC2 : Entry := Entry.new kernel690

/-- Entry over the initrd-less kernel. -/
def entryC2NoInitrd : Entry := Entry.new kernel690NoInitrd

/-- Kernel for the entry-id scenario. -/
def kernel691d : Kernel :=
  { version := "6.9.0-1.desktop".data,
    image := ["usr".data, "lib".data, "kernel".data, "6.9.0-1.desktop".data,
              "vmlinuz".data],
    initrd := [],
    extras := [],
    variant := none }

/-- Entry with state id 42 for the entry-id scenario. -/
def entryC7 : Entry :=
  { kernel := kernel691d, sysroot := none, cmdline := [], stateId := some 42,
    schema := none }

/-! ## Boot environment (bootenv.rs) -/

/-- `Firmware` (bootenv.rs). -/
inductive Firmware
  | uefi
  | bios
deriving DecidableEq, Repr

/-- `Root` (lib.rs): native installation or offline image. -/
inductive RootCfg
  | native (p : FilePath)
  | image (p : FilePath)
deriving DecidableEq, Repr

/-- `Configuration` (lib.rs). -/
structure Configuration where
  root : RootCfg
  vfs : FilePath
deriving DecidableEq, Repr

/-- The error cases of `BootEnvironment::new` and `determine_esp_by_bls`. -/
inductive BootEnvError
  | unsupported
  | bootLoaderProtocol
  | noEsp
deriving DecidableEq, Repr

/-- An EFI-variable read performed through the BLS BootLoaderProtocol
interface; the trace of these is how the embedding observes whether the BLS
protocol was attempted. -/
inductive EfiRead
  | loaderInfo
  | loaderDevicePartUuid
deriving DecidableEq, Repr

/-- The host-OS oracles `BootEnvironment::new` consults: existence of
`{vfs}/sys/firmware/efi`, the two BLS EFI variables (decoded from UCS-2,
`none` models a failed read), canonicalisation of
`{vfs}/dev/disk/by-partuuid/<uuid>`, the GPT ESP scan of a parent disk
(`determine_esp_by_gpt`, `none` models any failure), the canonical
device-to-mountpoint map built from the probe's mount table, and the
XBOOTLDR discovery relative to an ESP (`discover_xbootldr`, errors already
swallowed to `none`). -/
structure HostEnv where
  efiFwDirExists : Bool
  loaderInfoVar : Option Str
  loaderDevicePartUuidVar : Option Str
  canonicalByPartUuid : Str → Option FilePath
  gptEspOf : FilePath → Option FilePath
  mountpointOf : FilePath → Option FilePath
  xbootldrOf : FilePath → Option FilePath

/-- `BootEnvironment` (bootenv.rs). -/
structure BootEnvironment where
  xbootldr : Option FilePath
  esp : Option FilePath
  firmware : Firmware
  espMountpoint : Option FilePath
  xbootMountpoint : Option FilePath
deriving DecidableEq, Repr

/-- Modelled from the spec: `determine_esp_by_bls` (bootenv.rs) delegates to
the BootLoaderProtocol interface (`interface.rs`, not under src/), which reads
the `LoaderInfo` EFI variable (UCS-2) from the systemd vendor GUID and then
`LoaderDevicePartUUID`, canonicalising `{vfs}/dev/disk/by-partuuid/<uuid>`.
BIOS firmware is rejected before any read. Returns the result together with
the trace of EFI-variable reads performed. -/
def determineEspByBls (firmware : Firmware) (env : HostEnv) :
    Except BootEnvError FilePath × List EfiRead :=
  match firmware with
  | Firmware.bios => (Except.error BootEnvError.unsupported, [])
  | Firmware.uefi =>
    match env.loaderInfoVar with
    | none => (Except.error BootEnvError.bootLoaderProtocol, [EfiRead.loaderInfo])
    | some _ =>
      match env.loaderDevicePartUuidVar with
      | none => (Except.error BootEnvError.bootLoaderProtocol,
                 [EfiRead.loaderInfo, EfiRead.loaderDevicePartUuid])
      | some uuid =>
        match env.canonicalByPartUuid uuid with
        | none => (Except.error BootEnvError.bootLoaderProtocol,
                   [EfiRead.loaderInfo, EfiRead.loaderDevicePartUuid])
        | some p => (Except.ok p,
                     [EfiRead.loaderInfo, EfiRead.loaderDevicePartUuid])

/-- Firmware detection of `BootEnvironment::new`: UEFI iff
`{vfs}/sys/firmware/efi` exists. -/
def bootFirmware (env : HostEnv) : Firmware :=
  if env.efiFwDirExists then Firmware.uefi else Firmware.bios

/-- The `esp_from_bls` step of `BootEnvironment::new`: skipped entirely in
image mode, otherwise `determine_esp_by_bls(..).ok()`; paired with its
EFI-read trace. -/
def bootEspFromBls (env : HostEnv) (config : Configuration) :
    Option FilePath × List EfiRead :=
  match config.root with
  | RootCfg.image _ => (none, [])
  | _ =>
    ((determineEspByBls (bootFirmware env) env).1.toOption,
     (determineEspByBls (bootFirmware env) env).2)

/-- The layered ESP determination of `BootEnvironment::new`: the BLS result,
or else the GPT scan of the rootfs's parent disk (when known). -/
def bootEsp (env : HostEnv) (diskParent : Option FilePath)
    (config : Configuration) : Option FilePath :=
  match (bootEspFromBls env config).1 with
  | some p => some p
  | none => Option.bind diskParent env.gptEspOf

/-- `BootEnvironment::new` (bootenv.rs), returning the constructed value (or
error) together with the trace of EFI-variable reads performed. -/
def BootEnvironment.new (env : HostEnv) (diskParent : Option FilePath)
    (config : Configuration) :
    Except BootEnvError BootEnvironment × List EfiRead :=
  if bootFirmware env = Firmware.uefi ∧ bootEsp env diskParent config = none then
    (Except.error BootEnvError.noEsp, (bootEspFromBls env config).2)
  else
    match bootEsp env diskParent config with
    | none =>
      (Except.ok { xbootldr := none, esp := none, firmware := bootFirmware env,
                   espMountpoint := none, xbootMountpoint := none },
       (bootEspFromBls env config).2)
    | some espPath =>
      (Except.ok { xbootldr := env.xbootldrOf espPath, esp := some espPath,
                   firmware := bootFirmware env,
                   espMountpoint := env.mountpointOf espPath,
                   xbootMountpoint := (env.xbootldrOf espPath).bind env.mountpointOf },
       (bootEspFromBls env config).2)

/-! ## Concrete boot-environment scenarios -/

/-- A UEFI host whose BLS protocol resolves an ESP device. -/
def envC3 : HostEnv :=
  { efiFwDirExists := true,
    loaderInfoVar := some "systemd-boot".data,
    loaderDevicePartUuidVar := some "abcd-ef01".data,
    canonicalByPartUuid := fun _ => some ["dev".data, "sda1".data],
    gptEspOf := fun _ => none,
    mountpointOf := fun _ => none,
    xbootldrOf := fun _ => none }

/-- A native-root configuration. -/
def cfgNative : Configuration := { root := RootCfg.native [], vfs := [] }

/-- The boot environment `envC3`/`cfgNative` resolves to. -/
def beC3 : BootEnvironment :=
  { xbootldr := none, esp := some ["dev".data, "sda1".data],
    firmware := Firmware.uefi, espMountpoint := none, xbootMountpoint := none }

/-- A UEFI host whose GPT scan (but not BLS) resolves an ESP device. -/
def envC6 : HostEnv :=
  { efiFwDirExists := true,
    loaderInfoVar := some "systemd-boot".data,
    loaderDevicePartUuidVar := some "abcd-ef01".data,
    canonicalByPartUuid := fun _ => some ["dev".data, "sda1".data],
    gptEspOf := fun _ => some ["dev".data, "sdb2".data],
    mountpointOf := fun _ => none,
    xbootldrOf := fun _ => none }

/-- An image-root configuration. -/
def cfgImage : Configuration :=
  { root := RootCfg.image ["tmp".data, "img".data], vfs := [] }

/-- The boot environment `envC6`/`cfgImage` resolves to: the ESP comes from
the GPT scan alone. -/
def beC6 : BootEnvironment :=
  { xbootldr := none, esp := some ["dev".data, "sdb2".data],
    firmware := Firmware.uefi, espMountpoint := none, xbootMountpoint := none }

/-! ## Concrete discovery scenario (Solus 4 legacy layout) -/

/-- The fixed Solus legacy namespace. -/
def nsSolus : Str := "com.solus-project".data

/-- An os-release for the legacy scenario (the legacy scan ignores it). -/
def osrSolus : OsRelease :=
  { name := "Solus".data, id := "solus".data, versionId := "4.4".data,
    prettyName := none }

/-- The input set of the Solus 4 legacy kernel scan scenario. -/
def c4paths : List FilePath :=
  [ ["com.solus-project.desktop.6.1.7-25".data],
    ["initrd-com.solus-project.desktop.6.1.7-25".data],
    ["System.map-6.1.7-25.desktop".data],
    ["cmdline-6.1.7-25.desktop".data] ]

/-- The kernel the legacy scan is expected to produce for `c4paths`. -/
def c4kernel : Kernel :=
  { version := "6.1.7-25".data,
    image := ["com.solus-project.desktop.6.1.7-25".data],
    initrd := [{ path := ["initrd-com.solus-project.desktop.6.1.7-25".data],
                 kind := .initRd }],
    extras := [{ path := ["cmdline-6.1.7-25.desktop".data], kind := .cmdline },
               { path := ["System.map-6.1.7-25.desktop".data], kind := .systemMap }],
    variant := some "desktop".data }

/-! ## Device-chain probing (crates/topology/src/disk/probe.rs) -/

/-- The sysfs `slaves/` model: an association list from a device's leaf name to
the readdir-ordered names in `{sysfs}/class/block/<leaf>/slaves/`. A device
absent from the table has no `slaves/` directory; an entry with an empty list
has an empty `slaves/` directory. (The embedding assumes each visited device's
sysfs node canonicalises, the normal case; canonicalisation failures abort the
Rust function with a typed error before any of the behaviour claimed here.) -/
abbrev SysfsSlaves := List (Str × List Str)

/-- Look up a device's `slaves/` directory listing. -/
def slavesOf (fs : SysfsSlaves) (dev : Str) : Option (List Str) :=
  (fs.find? (fun e => e.1 == dev)).map (fun e => e.2)

/-- The loop body of `Probe::get_device_chain`: for each slave, push its name
and then the recursively computed chain (`ret.push(name);
ret.extend(self.get_device_chain(&name)?)`). -/
def chainFold (chainAt : Str → Option (List Str)) :
    List Str → List Str → Option (List Str)
  | acc, [] => some acc
  | acc, s :: rest =>
    match chainAt s with
    | none => none
    | some sub => chainFold chainAt (acc ++ s :: sub) rest

/-- `Probe::get_device_chain` (probe.rs), with explicit recursion fuel: `none`
models non-termination (a cyclic `slaves/` graph, impossible on real sysfs)
exactly as running out of fuel; on acyclic inputs a large enough fuel returns
the Rust result. A device with no `slaves/` directory yields the empty
chain. -/
def getDeviceChain (fs : SysfsSlaves) : Nat → Str → Option (List Str)
  | 0, _ => none
  | fuel + 1, dev =>
    match slavesOf fs dev with
    | none => some []
    | some slaves => chainFold (getDeviceChain fs fuel) [] slaves

/-- The sysfs table of the concrete device-chain scenario: `dm-0` is backed by
`sda1` (which has an empty `slaves/` directory) and `sdb1` (which has none). -/
def sysfsC9 : SysfsSlaves :=
  [("dm-0".data, ["sda1".data, "sdb1".data]), ("sda1".data, [])]

/-! ## systemd-boot loader synchronisation (systemd_boot/mod.rs)

The boot partition is modelled as an association list from absolute paths
(component lists) to file contents; directories exist implicitly as proper
prefixes of stored paths. `join_insensitive` is modelled as plain path join:
case-insensitive matching only changes which on-disk spelling is reused, never
which file is addressed. File writes are tracked as explicit events. -/

/-- The modelled boot-partition filesystem. -/
abbrev BootFs := List (FilePath × Str)

/-- Read a file's content (first matching entry wins). -/
def fsLookup : BootFs → FilePath → Option Str
  | [], _ => none
  | e :: rest, p => if e.1 = p then some e.2 else fsLookup rest p

/-- Write (create or overwrite) a file. -/
def fsWrite (fs : BootFs) (p : FilePath) (c : Str) : BootFs :=
  (p, c) :: fs.filter (fun e => !(e.1 == p))

/-- `fs::remove_file`: drop one path. -/
def fsRemoveFile (fs : BootFs) (p : FilePath) : BootFs :=
  fs.filter (fun e => !(e.1 == p))

/-- `fs::remove_dir_all`: drop everything at or below a directory. -/
def fsRemoveTree (fs : BootFs) (d : FilePath) : BootFs :=
  fs.filter (fun e => !(d.isPrefixOf e.1))

/-- Modelled from the spec: `file_utils::changed_files` (file_utils.rs is not
under src/) — source and destination are compared by content hash, equal hash
means no write; a missing destination is always copied. -/
def changedFiles (fs : BootFs) (pairs : List (FilePath × FilePath)) :
    List (FilePath × FilePath) :=
  pairs.filter (fun sd => !(fsLookup fs sd.1 == fsLookup fs sd.2))

/-- `bootloader::Error` cases reachable in the modelled functions (`ioFail`
covers the I/O failure of a copy whose source cannot be read). -/
inductive BootloaderError
  | missingFile
  | missingMount
  | ioFail
deriving DecidableEq, Repr

/-- Modelled from the spec: `file_utils::copy_atomic_vfat` (file_utils.rs is
not under src/) — temp-file plus rename; the destination ends up with exactly
the source's content, never a partial file; an unreadable source fails the
copy. -/
def copyAtomic (fs : BootFs) (src dest : FilePath) :
    Except BootloaderError BootFs :=
  match fsLookup fs src with
  | none => Except.error BootloaderError.ioFail
  | some c => Except.ok (fsWrite fs dest c)

/-- A tracked write to the boot partition. -/
inductive WriteEvent
  | copied (dest : FilePath)
  | wroteConf (dest : FilePath)
deriving DecidableEq, Repr

/-- `InstallResult` (systemd_boot/mod.rs). The Rust struct stores rendered
strings; for slash-free components the paths compare equal iff the strings
do. -/
structure InstallResult where
  loaderConf : FilePath
  kernelDir : FilePath
deriving DecidableEq, Repr

/-- `{boot_root}/loader/entries`. -/
def loaderEntriesDir (bootRoot : FilePath) : FilePath :=
  bootRoot ++ ["loader".data, "entries".data]

/-- The `.conf` path `install` writes for an entry. -/
def entryConfPath (bootRoot : FilePath) (schema : Schema) (e : Entry) : FilePath :=
  loaderEntriesDir bootRoot ++ [e.id schema ++ ".conf".data]

/-- `Loader::get_kernel_dir`: `{boot_root}/EFI/{effective namespace}`. -/
def entryKernelDir (bootRoot : FilePath) (schema : Schema) (e : Entry) : FilePath :=
  bootRoot ++ ["EFI".data, (e.schema.getD schema).osNamespace]

/-- The vmlinuz destination of an entry (`none` models the `MissingFile`
failure when the installed kernel name cannot be computed). -/
def entryVmlinuz (bootRoot : FilePath) (schema : Schema) (e : Entry) :
    Option FilePath :=
  (e.installedKernelName schema).map (fun n => entryKernelDir bootRoot schema e ++ n)

/-- The initrd copy pairs of an entry (source rooted at the sysroot,
destination under the kernel directory). -/
def entryInitrdPairs (bootRoot : FilePath) (schema : Schema) (e : Entry) :
    List (FilePath × FilePath) :=
  e.kernel.initrd.filterMap (fun asset =>
    (e.installedAssetName schema asset).map (fun n =>
      ((e.sysroot.getD []) ++ asset.path, entryKernelDir bootRoot schema e ++ n)))

/-- The full copy changeset of `install`: the vmlinuz pair followed by the
initrd pairs. -/
def entryChangeset (bootRoot : FilePath) (schema : Schema) (e : Entry) :
    Option (List (FilePath × FilePath)) :=
  (entryVmlinuz bootRoot schema e).map (fun vm =>
    ((e.sysroot.getD []) ++ e.kernel.image, vm) ::
      entryInitrdPairs bootRoot schema e)

/-- `Loader::install` (systemd_boot/mod.rs): copy the changed kernel/initrd
files (content-hash compared, atomic VFAT copies), then unconditionally write
the entry's `.conf` (the source carries a TODO to hash-compare it). The
`strip_prefix` on the kernel directory cannot fail (it is built from
`boot_root`) and is modelled as dropping the boot root's components; the
`create_dir_all` on `loader/entries` creates no file and is not a tracked
write. -/
def install (bootRoot : FilePath) (schema : Schema) (fs : BootFs)
    (cmdline : Str) (e : Entry) :
    Except BootloaderError (BootFs × List WriteEvent × InstallResult) :=
  match entryVmlinuz bootRoot schema e with
  | none => Except.error BootloaderError.missingFile
  | some vmlinuz =>
    let changeset := ((e.sysroot.getD []) ++ e.kernel.image, vmlinuz) ::
      entryInitrdPairs bootRoot schema e
    let needsWriting := changedFiles fs changeset
    match exceptFoldlM (fun f sd => copyAtomic f sd.1 sd.2) fs needsWriting with
    | Except.error err => Except.error err
    | Except.ok fs1 =>
      let events := needsWriting.map (fun sd => WriteEvent.copied sd.2)
      let assetDir := renderPath ((entryKernelDir bootRoot schema e).drop bootRoot.length)
      let conf := generateEntry schema assetDir cmdline e
      let loaderId := entryConfPath bootRoot schema e
      Except.ok (fsWrite fs1 loaderId conf,
        events ++ [WriteEvent.wroteConf loaderId],
        { loaderConf := loaderId, kernelDir := vmlinuz.dropLast })

/-- The destinations an entry's install writes kernel assets to. -/
def entryDestsOf (bootRoot : FilePath) (schema : Schema) (e : Entry) :
    List FilePath :=
  match entryChangeset bootRoot schema e with
  | some cs => cs.map (fun sd => sd.2)
  | none => []

/-- All kernel-asset destinations of a whole entry list. -/
def allDests (bootRoot : FilePath) (schema : Schema) (entries : List Entry) :
    List FilePath :=
  (entries.map (entryDestsOf bootRoot schema)).flatten

/-- The install result `install` produces for an entry (junk when the install
would fail). -/
def installResultOf (bootRoot : FilePath) (schema : Schema) (e : Entry) :
    InstallResult :=
  match entryVmlinuz bootRoot schema e with
  | some vm =>
    { loaderConf := entryConfPath bootRoot schema e, kernelDir := vm.dropLast }
  | none => { loaderConf := [], kernelDir := [] }

/-- The namespace set of `cleanup_stale_entries` (all former identities plus
the current one for OsInfo, the plain namespace otherwise). -/
def cleanupNamespaces (schema : Schema) : List Str :=
  match schema with
  | Schema.osInfo info =>
    info.identity.formerIdentities.map (fun i => i.id) ++ [info.identity.id]
  | _ => [schema.osNamespace]

/-- The loader-file prefix set of `cleanup_stale_entries` (former plus current
identities for OsInfo, `os_release.name` for Legacy, the os id otherwise). -/
def cleanupPrefixSet (schema : Schema) : List Str :=
  match schema with
  | Schema.osInfo info =>
    info.identity.formerIdentities.map (fun i => i.id) ++ [info.identity.id]
  | Schema.legacy osr _ => [osr.name]
  | _ => [schema.osId]

/-- `read_dir` of a directory over the flat filesystem: the distinct first
components below it (files and subdirectories alike, as `read_dir` yields
both). -/
def dirEntryNames (fs : BootFs) (dir : FilePath) : List Str :=
  (fs.filterMap (fun e =>
    if dir.isPrefixOf e.1 then (e.1.drop dir.length).head? else none)).dedup

/-- The subdirectories of a directory over the flat filesystem: first
components below it that have something strictly below them (the
`file_type().is_dir()` filter). -/
def dirSubdirNames (fs : BootFs) (dir : FilePath) : List Str :=
  (fs.filterMap (fun e =>
    if dir.isPrefixOf e.1 && decide (dir.length + 1 < e.1.length) then
      (e.1.drop dir.length).head?
    else none)).dedup

/-- The loader files `cleanup_stale_entries` collects: entries of
`loader/entries` whose name starts with any prefix in the prefix set. -/
def cleanupLoaderFiles (fs : BootFs) (bootRoot : FilePath) (schema : Schema) :
    List FilePath :=
  ((dirEntryNames fs (loaderEntriesDir bootRoot)).filter (fun name =>
    (cleanupPrefixSet schema).any (fun pre => pre.isPrefixOf name))).map
    (fun name => loaderEntriesDir bootRoot ++ [name])

/-- The kernel directories `cleanup_stale_entries` collects: subdirectories of
`EFI/{ns}` for every namespace in the namespace set. -/
def cleanupKernelDirs (fs : BootFs) (bootRoot : FilePath) (schema : Schema) :
    List FilePath :=
  ((cleanupNamespaces schema).map (fun ns =>
    (dirSubdirNames fs (bootRoot ++ ["EFI".data, ns])).map
      (fun d => bootRoot ++ ["EFI".data, ns, d]))).flatten

/-- The stale loader files: collected ones not recorded in the installed
list. -/
def obsoleteConfs (fs : BootFs) (bootRoot : FilePath) (schema : Schema)
    (installed : List InstallResult) : List FilePath :=
  (cleanupLoaderFiles fs bootRoot schema).filter (fun f =>
    !(installed.any (fun r => r.loaderConf == f)))

/-- The stale kernel directories: collected ones not recorded in the installed
list. -/
def obsoleteKernelDirs (fs : BootFs) (bootRoot : FilePath) (schema : Schema)
    (installed : List InstallResult) : List FilePath :=
  (cleanupKernelDirs fs bootRoot schema).filter (fun f =>
    !(installed.any (fun r => r.kernelDir == f)))

/-- `Loader::cleanup_stale_entries` (systemd_boot/mod.rs). `removable` is the
host oracle saying which deletions succeed; a failed deletion is logged and
skipped, never propagated, and every stale item is attempted regardless of
earlier failures. Returns the new filesystem together with both lists of
attempted deletions; the function always returns `Ok`. -/
def cleanupStaleEntries (bootRoot : FilePath) (schema : Schema)
    (removable : FilePath → Bool) (fs : BootFs)
    (installed : List InstallResult) :
    Except BootloaderError (BootFs × List FilePath × List FilePath) :=
  let confs := obsoleteConfs fs bootRoot schema installed
  let kdirs := obsoleteKernelDirs fs bootRoot schema installed
  let fs1 := confs.foldl (fun f c => if removable c then fsRemoveFile f c else f) fs
  let fs2 := kdirs.foldl (fun f d => if removable d then fsRemoveTree f d else f) fs1
  Except.ok (fs2, confs, kdirs)

/-- Rust `Vec::join(" ")`. -/
def joinWithSpace : List Str → Str
  | [] => []
  | [s] => s
  | s :: rest => s ++ ' ' :: joinWithSpace rest

/-- The full cmdline of one entry: the base cmdline followed by the entry's
snippets whose names are not excluded, joined with spaces. -/
def entryFullCmdline (cmdline exclusions : List Str) (e : Entry) : Str :=
  joinWithSpace (cmdline ++ (e.cmdline.filter (fun c =>
    !(exclusions.contains c.name))).map (fun c => c.snippet))

/-- One entry of the `sync_entries` loop: filter the entry's snippets by the
exclusion set, join the full cmdline, install, and collect the result. -/
def syncStep (bootRoot : FilePath) (schema : Schema) (cmdline : List Str)
    (exclusions : List Str)
    (st : BootFs × List WriteEvent × List InstallResult) (e : Entry) :
    Except BootloaderError (BootFs × List WriteEvent × List InstallResult) :=
  match install bootRoot schema st.1 (entryFullCmdline cmdline exclusions e) e with
  | Except.error err => Except.error err
  | Except.ok (fs', evs, r) => Except.ok (fs', st.2.1 ++ evs, st.2.2 ++ [r])

/-- `Loader::sync_entries` (systemd_boot/mod.rs): install every entry in
order, then clean up stale artefacts. Returns the final filesystem, the write
events of the installs, the install results, and the two cleanup attempt
lists. -/
def syncEntries (bootRoot : FilePath) (schema : Schema)
    (removable : FilePath → Bool) (fs : BootFs) (cmdline : List Str)
    (entries : List Entry) (exclusions : List Str) :
    Except BootloaderError
      (BootFs × List WriteEvent × List InstallResult ×
        List FilePath × List FilePath) :=
  match exceptFoldlM (syncStep bootRoot schema cmdline exclusions)
      (fs, [], []) entries with
  | Except.error err => Except.error err
  | Except.ok (fs1, evs, installed) =>
    match cleanupStaleEntries bootRoot schema removable fs1 installed with
    | Except.error err => Except.error err
    | Except.ok (fs2, confs, kdirs) => Except.ok (fs2, evs, installed, confs, kdirs)

/-! ## Concrete sync scenario -/

/-- Boot root of the concrete sync scenario. -/
def bootRootC1 : FilePath := ["boot".data]

/-- Initial system filesystem: the kernel image and its initrd exist under
`/usr/lib/kernel/6.9.0`. -/
def fsC1 : BootFs :=
  [ (["usr".data, "lib".data, "kernel".data, "6.9.0".data, "vmlinuz".data],
     "KERNELDATA".data),
    (["usr".data, "lib".data, "kernel".data, "6.9.0".data, "initrd".data],
     "INITRDDATA".data) ]

/-- Base cmdline of the concrete sync scenario. -/
def cmdlineC1 : List Str := ["root=PARTUUID=abc quiet".data]

/-- First sync run of the concrete scenario. -/
def c1run1 :
    Except BootloaderError
      (BootFs × List WriteEvent × List InstallResult ×
        List FilePath × List FilePath) :=
  syncEntries bootRootC1 schemaAeryn (fun _ => true) fsC1 cmdlineC1 [entryC2] []

/-- The filesystem after the first sync run. -/
def c1fs1 : BootFs :=
  match c1run1 with
  | Except.ok (f, _) => f
  | Except.error _ => []

/-- Second sync run, on the first run's filesystem with identical inputs. -/
def c1run2 :
    Except BootloaderError
      (BootFs × List WriteEvent × List InstallResult ×
        List FilePath × List FilePath) :=
  syncEntries bootRootC1 schemaAeryn (fun _ => true) c1fs1 cmdlineC1 [entryC2] []

/-- The write events of the second sync run. -/
def c1events2 : List WriteEvent :=
  match c1run2 with
  | Except.ok (_, evs, _) => evs
  | Except.error _ => []

/-! ## Order-theoretic facts about the discovery sort -/

theorem strLe_total (a b : Str) : strLe a b = true ∨ strLe b a = true := by
  induction a generalizing b with
  | nil => left; rfl
  | cons x as ih =>
    cases b with
    | nil => right; rfl
    | cons y bs =>
      by_cases hxy : x = y
      · subst hxy
        rcases ih bs with h | h
        · left; simpa [strLe] using h
        · right; simpa [strLe] using h
      · rcases lt_or_gt_of_ne hxy with h | h
        · left; simp [strLe, hxy, h]
        · right; simp [strLe, Ne.symm hxy, h]

theorem strLe_trans (a b c : Str) (hab : strLe a b = true) (hbc : strLe b c = true) :
    strLe a c = true := by
  induction a generalizing b c with
  | nil => rfl
  | cons x as ih =>
    cases b with
    | nil => simp [strLe] at hab
    | cons y bs =>
      cases c with
      | nil => simp [strLe] at hbc
      | cons z cs =>
        by_cases hxy : x = y <;> by_cases hyz : y = z
        · subst hxy; subst hyz
          simp only [strLe, if_pos rfl] at hab hbc ⊢
          exact ih bs cs hab hbc
        · subst hxy
          simp only [strLe, if_pos rfl, if_neg hyz] at hbc
          simp only [strLe, if_neg hyz]
          exact hbc
        · subst hyz
          simp only [strLe, if_neg hxy] at hab
          simp only [strLe, if_neg hxy]
          exact hab
        · simp only [strLe, if_neg hxy] at hab
          simp only [strLe, if_neg hyz] at hbc
          have hxz : x < z := lt_trans (of_decide_eq_true hab) (of_decide_eq_true hbc)
          have : x ≠ z := ne_of_lt hxz
          simp [strLe, this, hxz]

instance : IsTotal AuxiliaryFile auxLe where
  total a b := strLe_total (auxKey a) (auxKey b)

instance : IsTrans AuxiliaryFile auxLe where
  trans a b c hab hbc := strLe_trans (auxKey a) (auxKey b) (auxKey c) hab hbc

theorem sortAuxByLowerPath_sorted (l : List AuxiliaryFile) :
    (sortAuxByLowerPath l).Sorted auxLe :=
  List.sorted_insertionSort auxLe l

/-! ## Generic lemmas about `Except` folds and maps -/

theorem exceptMapM_mem {ε α β : Type} (f : α → Except ε β) :
    ∀ (l : List α) (ys : List β), exceptMapM f l = Except.ok ys →
      ∀ y ∈ ys, ∃ x ∈ l, f x = Except.ok y := by
  intro l
  induction l with
  | nil =>
    intro ys h y hy
    simp only [exceptMapM, Except.ok.injEq] at h
    subst h
    simp at hy
  | cons x xs ih =>
    intro ys h y hy
    simp only [exceptMapM] at h
    cases hx : f x with
    | error e => simp [hx] at h
    | ok b =>
      cases hxs : exceptMapM f xs with
      | error e => simp [hx, hxs] at h
      | ok bs =>
        simp only [hx, hxs, Except.ok.injEq] at h
        subst h
        rcases List.mem_cons.mp hy with rfl | hmem
        · exact ⟨x, List.mem_cons_self x xs, hx⟩
        · obtain ⟨x', hx', hfx'⟩ := ih bs hxs y hmem
          exact ⟨x', List.mem_cons_of_mem x hx', hfx'⟩

theorem exceptFoldlM_inv {ε σ α : Type} (P : σ → Prop) (f : σ → α → Except ε σ)
    (hstep : ∀ s a s', P s → f s a = Except.ok s' → P s') :
    ∀ (l : List α) (s s' : σ), P s → exceptFoldlM f s l = Except.ok s' → P s' := by
  intro l
  induction l with
  | nil =>
    intro s s' hP h
    simp only [exceptFoldlM, Except.ok.injEq] at h
    subst h
    exact hP
  | cons x xs ih =>
    intro s s' hP h
    simp only [exceptFoldlM] at h
    cases hx : f s x with
    | error e => rw [hx] at h; cases h
    | ok s₁ =>
      rw [hx] at h
      exact ih s₁ s' (hstep s x s₁ hP hx) h

theorem list_foldl_inv {σ α : Type} (P : σ → Prop) (f : σ → α → σ)
    (hstep : ∀ s a, P s → P (f s a)) :
    ∀ (l : List α) (s : σ), P s → P (List.foldl f s l) := by
  intro l
  induction l with
  | nil => intro s hP; exact hP
  | cons x xs ih => intro s hP; exact ih (f s x) (hstep s x hP)

/-! ## Sortedness of discovery output -/

theorem legacyAuxFor_sorted (ns : Str) (paths : List FilePath) (version : Str)
    (k y : Kernel) (h : legacyAuxFor ns paths version k = Except.ok y) :
    kernelAuxSorted y := by
  unfold legacyAuxFor at h
  cases hf : exceptFoldlM (legacyAuxStep ns version k.variant) k paths with
  | error e => rw [hf] at h; cases h
  | ok k' =>
    rw [hf] at h
    cases h
    exact ⟨sortAuxByLowerPath_sorted _, sortAuxByLowerPath_sorted _⟩

theorem blsformeAuxStep_sorted (version : Str) (lepath : FilePath)
    (kern : Kernel) (p : FilePath) (kern' : Kernel)
    (hP : kernelAuxSorted kern)
    (h : blsformeAuxStep version lepath kern p = Except.ok kern') :
    kernelAuxSorted kern' := by
  unfold blsformeAuxStep at h
  split at h
  · cases hfn : fileName p with
    | none => rw [hfn] at h; cases h
    | some fname =>
      rw [hfn] at h
      cases h
      exact ⟨sortAuxByLowerPath_sorted _, sortAuxByLowerPath_sorted _⟩
  · cases h
    exact hP

theorem blsformeImages_mem (allPaths : List FilePath) :
    ∀ vk ∈ blsformeImages allPaths, vk.2.initrd = [] ∧ vk.2.extras = [] := by
  unfold blsformeImages
  refine list_foldl_inv (fun acc => ∀ vk ∈ acc, vk.2.initrd = [] ∧ vk.2.extras = [])
    blsformeImagesStep ?_ allPaths [] (by simp)
  intro acc p hP vk hvk
  unfold blsformeImagesStep at hvk
  split at hvk
  · split at hvk
    · split at hvk
      · obtain ⟨e, he, hvk'⟩ := List.mem_map.mp hvk
        split at hvk'
        · cases hvk'
          exact ⟨rfl, rfl⟩
        · cases hvk'
          exact hP _ he
      · rcases List.mem_append.mp hvk with hmem | hmem
        · exact hP vk hmem
        · simp only [List.mem_singleton] at hmem
          subst hmem
          exact ⟨rfl, rfl⟩
    · exact hP vk hvk
  · exact hP vk hvk

theorem blsformeKernels_sorted (paths : List FilePath) (ks : List Kernel)
    (h : blsformeKernels paths = Except.ok ks) :
    ∀ k ∈ ks, kernelAuxSorted k := by
  intro k hk
  unfold blsformeKernels at h
  obtain ⟨vk, hvk, hok⟩ := exceptMapM_mem _ _ ks h k hk
  have hempty := blsformeImages_mem (blsformeAllPaths paths) vk hvk
  have hP : kernelAuxSorted vk.2 := by
    constructor
    · rw [hempty.1]; exact List.sorted_nil
    · rw [hempty.2]; exact List.sorted_nil
  unfold blsformeAuxFor at hok
  exact exceptFoldlM_inv kernelAuxSorted _
    (fun s a s' => blsformeAuxStep_sorted vk.1 vk.2.image.dropLast s a s')
    (blsformeAllPaths paths) vk.2 k hP hok

/-! ## Claim theorems: kernel discovery -/

/-- C4: Legacy kernel discovery over the four-file Solus 4 input set with
namespace `com.solus-project` returns exactly one kernel with version
`6.1.7-25`, variant `desktop`, exactly one initrd (the `initrd-…` file) and
exactly two extras ordered `cmdline-…` before `System.map-…` by lowercased
path. -/
theorem claim_C4_legacy_scan :
    (Schema.legacy osrSolus nsSolus).discoverSystemKernels c4paths =
      Except.ok [c4kernel] := by
  rfl

/-- C10: a basename that starts with the namespace but is not immediately
followed by a dot makes `legacy_kernels` panic instead of skipping the file or
returning an error: a basename exactly equal to the namespace hits the
out-of-bounds `split_at(namespace.len() + 1)`, and a basename one character
longer whose next character is not `.` fails the `assert!(left.ends_with('.'))`.
`KError.panicked` models the panic, which bypasses the `Result` error channel. -/
theorem claim_C10_legacy_panic :
    legacyKernels nsSolus [["com.solus-project".data]] =
      Except.error KError.panicked ∧
    legacyKernels nsSolus [["com.solus-projectX".data]] =
      Except.error KError.panicked := by
  exact ⟨rfl, rfl⟩

/-- C8: every kernel returned by `Schema::discover_system_kernels`, under every
schema variant, has its `initrd` list and its `extras` list sorted ascending by
the lowercased string form of their paths. -/
theorem claim_C8_discovery_sorted (schema : Schema) (paths : List FilePath)
    (ks : List Kernel) (h : schema.discoverSystemKernels paths = Except.ok ks) :
    ∀ k ∈ ks, k.initrd.Sorted auxLe ∧ k.extras.Sorted auxLe := by
  intro k hk
  cases schema with
  | legacy osr ns =>
    simp only [Schema.discoverSystemKernels] at h
    unfold legacyKernels at h
    cases hf : legacyFindKernels ns paths with
    | error e => rw [hf] at h; cases h
    | ok found =>
      rw [hf] at h
      obtain ⟨vk, hvk, hok⟩ := exceptMapM_mem _ found ks h k hk
      exact legacyAuxFor_sorted ns paths vk.1 vk.2 k hok
  | blsforme osr =>
    simp only [Schema.discoverSystemKernels] at h
    exact blsformeKernels_sorted paths ks h k hk
  | osInfo info =>
    simp only [Schema.discoverSystemKernels] at h
    exact blsformeKernels_sorted paths ks h k hk

/-- Witness for C8 at the concrete Solus 4 legacy scenario. -/
theorem claim_C8_witness :
    c4kernel.initrd.Sorted auxLe ∧ c4kernel.extras.Sorted auxLe :=
  claim_C8_discovery_sorted (Schema.legacy osrSolus nsSolus) c4paths [c4kernel]
    (by rfl) c4kernel (List.mem_singleton.mpr rfl)

/-! ## Claim theorems: entry id and loader entry text -/

/-- C7: with a Blsforme schema whose os id is `aerynos`, a kernel of version
`6.9.0-1.desktop` and state id 42, the entry id is
`aerynos-6.9.0-1.desktop-42`; in general the id is the namespace-like string
(`os_release.name` for a Legacy effective schema, the os id otherwise)
followed by `-{version}` and, when present, `-{state_id}`, and a per-entry
schema override makes the passed schema irrelevant. -/
theorem claim_C7_entry_id :
    Entry.id entryC7 schemaAeryn = "aerynos-6.9.0-1.desktop-42".data ∧
    (∀ (e : Entry) (s : Schema), e.stateId = none →
      Entry.id e s = specNamespaceLike (e.schema.getD s) ++ '-' :: e.kernel.version) ∧
    (∀ (e : Entry) (s : Schema) (sid : Int), e.stateId = some sid →
      Entry.id e s =
        specNamespaceLike (e.schema.getD s) ++ '-' :: e.kernel.version ++
          '-' :: intToStr sid) ∧
    (∀ (e : Entry) (ov s₁ s₂ : Schema), e.schema = some ov →
      Entry.id e s₁ = Entry.id e s₂) := by
  refine ⟨by rfl, ?_, ?_, ?_⟩
  · intro e s hnone
    unfold Entry.id specNamespaceLike
    rw [hnone]
    cases e.schema.getD s <;> rfl
  · intro e s sid hsome
    unfold Entry.id specNamespaceLike
    rw [hsome]
    cases e.schema.getD s <;> rfl
  · intro e ov s₁ s₂ hov
    unfold Entry.id
    rw [hov]
    rfl

/-- Witness for C7's hypothesised clauses: the state-id clause applied at the
concrete scenario entry. -/
theorem claim_C7_witness :
    Entry.id entryC7 schemaAeryn =
      specNamespaceLike (entryC7.schema.getD schemaAeryn) ++
        '-' :: entryC7.kernel.version ++ '-' :: intToStr 42 :=
  claim_C7_entry_id.2.2.1 entryC7 schemaAeryn 42 rfl

/-- C2 counterexample: at the claimed inputs the generated loader entry text is
not the claimed four-line text — the code emits a blank line between the
`linux` and `initrd` lines (the initrd block starts with `"\n"` and every
initrd line carries its own leading `"\n"`). -/
theorem claim_C2_counterexample :
    generateEntry schemaAeryn "EFI/aerynos".data "root=PARTUUID=abc quiet".data
        entryC2 ≠
      "title AerynOS (6.9.0)\nlinux /EFI/aerynos/6.9.0/vmlinuz\ninitrd /EFI/aerynos/6.9.0/initrd\noptions root=PARTUUID=abc quiet\n".data := by
  decide

/-- C2 (amended): for the AerynOS scenario the generated loader entry text is
title, linux, a blank line, the initrd line, then options (with a trailing
newline); with zero initrds a single blank line stands in place of the initrd
lines. The final on-boot paths `/EFI/aerynos/6.9.0/{vmlinuz,initrd}` match the
claim: `install` passes the kernel directory `EFI/aerynos` relative to the
boot root as `asset_dir`, and the installed names carry the `6.9.0/` prefix. -/
theorem claim_C2_loader_text :
    generateEntry schemaAeryn "EFI/aerynos".data "root=PARTUUID=abc quiet".data
        entryC2 =
      "title AerynOS (6.9.0)\nlinux /EFI/aerynos/6.9.0/vmlinuz\n\ninitrd /EFI/aerynos/6.9.0/initrd\noptions root=PARTUUID=abc quiet\n".data ∧
    generateEntry schemaAeryn "EFI/aerynos".data "root=PARTUUID=abc quiet".data
        entryC2NoInitrd =
      "title AerynOS (6.9.0)\nlinux /EFI/aerynos/6.9.0/vmlinuz\n\noptions root=PARTUUID=abc quiet\n".data := by
  exact ⟨rfl, rfl⟩

/-! ## Claim theorems: boot environment -/

/-- C3: every successfully constructed `BootEnvironment` with UEFI firmware
has an ESP; equivalently, when the firmware is UEFI and neither the BLS
protocol (for a native root) nor the GPT scan yields an ESP device, the
construction fails with `NoEsp`. -/
theorem claim_C3_uefi_esp (env : HostEnv) (diskParent : Option FilePath)
    (config : Configuration) :
    (∀ be reads,
      BootEnvironment.new env diskParent config = (Except.ok be, reads) →
      be.firmware = Firmware.uefi → be.esp.isSome = true) ∧
    (env.efiFwDirExists = true →
     (∀ p, config.root = RootCfg.native p →
        (determineEspByBls Firmware.uefi env).1.toOption = none) →
     Option.bind diskParent env.gptEspOf = none →
     (BootEnvironment.new env diskParent config).1 =
       Except.error BootEnvError.noEsp) := by
  constructor
  · intro be reads h hfw
    unfold BootEnvironment.new at h
    by_cases hc : (bootFirmware env = Firmware.uefi ∧
        bootEsp env diskParent config = none)
    · rw [if_pos hc] at h
      simp at h
    · rw [if_neg hc] at h
      cases hesp : bootEsp env diskParent config with
      | none =>
        rw [hesp] at h
        simp only [Prod.mk.injEq, Except.ok.injEq] at h
        obtain ⟨hbe, -⟩ := h
        subst hbe
        exact absurd ⟨hfw, hesp⟩ hc
      | some espPath =>
        rw [hesp] at h
        simp only [Prod.mk.injEq, Except.ok.injEq] at h
        obtain ⟨hbe, -⟩ := h
        subst hbe
        rfl
  · intro h1 hbls hgpt
    have hfw : bootFirmware env = Firmware.uefi := by
      unfold bootFirmware
      rw [h1]
      rfl
    have hesp : bootEsp env diskParent config = none := by
      unfold bootEsp bootEspFromBls
      cases hr : config.root with
      | image p => exact hgpt
      | native p =>
        rw [hfw, hbls p hr]
        exact hgpt
    unfold BootEnvironment.new
    rw [if_pos ⟨hfw, hesp⟩]

/-- Witness for C3: the UEFI host `envC3` resolves its ESP via BLS and the
constructed environment records it. -/
theorem claim_C3_witness : beC3.esp.isSome = true :=
  (claim_C3_uefi_esp envC3 none cfgNative).1 beC3
    [EfiRead.loaderInfo, EfiRead.loaderDevicePartUuid] rfl rfl

/-- C6: with an image root, `BootEnvironment::new` performs no EFI-variable
read and any successfully constructed environment takes its ESP from the GPT
scan of the parent disk alone; conversely, an EFI-variable read can only
happen for a native root on UEFI firmware. -/
theorem claim_C6_bls_gating (env : HostEnv) (diskParent : Option FilePath) :
    (∀ p vfs,
      (BootEnvironment.new env diskParent ⟨RootCfg.image p, vfs⟩).2 = [] ∧
      (∀ be reads,
        BootEnvironment.new env diskParent ⟨RootCfg.image p, vfs⟩ =
          (Except.ok be, reads) →
        be.esp = Option.bind diskParent env.gptEspOf)) ∧
    (∀ config : Configuration,
      (BootEnvironment.new env diskParent config).2 ≠ [] →
      (∃ p, config.root = RootCfg.native p) ∧ env.efiFwDirExists = true) := by
  constructor
  · intro p vfs
    have htrace : (bootEspFromBls env ⟨RootCfg.image p, vfs⟩).2 = [] := rfl
    have hespdef : bootEsp env diskParent ⟨RootCfg.image p, vfs⟩ =
        Option.bind diskParent env.gptEspOf := rfl
    constructor
    · unfold BootEnvironment.new
      by_cases hc : (bootFirmware env = Firmware.uefi ∧
          bootEsp env diskParent ⟨RootCfg.image p, vfs⟩ = none)
      · rw [if_pos hc]
        exact htrace
      · rw [if_neg hc]
        cases hesp : bootEsp env diskParent ⟨RootCfg.image p, vfs⟩ <;>
          exact htrace
    · intro be reads h
      unfold BootEnvironment.new at h
      by_cases hc : (bootFirmware env = Firmware.uefi ∧
          bootEsp env diskParent ⟨RootCfg.image p, vfs⟩ = none)
      · rw [if_pos hc] at h
        simp at h
      · rw [if_neg hc] at h
        cases hesp : bootEsp env diskParent ⟨RootCfg.image p, vfs⟩ with
        | none =>
          rw [hesp] at h
          simp only [Prod.mk.injEq, Except.ok.injEq] at h
          obtain ⟨hbe, -⟩ := h
          subst hbe
          rw [← hespdef, hesp]
        | some espPath =>
          rw [hesp] at h
          simp only [Prod.mk.injEq, Except.ok.injEq] at h
          obtain ⟨hbe, -⟩ := h
          subst hbe
          rw [← hespdef, hesp]
  · intro config hne
    have htrace : (BootEnvironment.new env diskParent config).2 =
        (bootEspFromBls env config).2 := by
      unfold BootEnvironment.new
      by_cases hc : (bootFirmware env = Firmware.uefi ∧
          bootEsp env diskParent config = none)
      · rw [if_pos hc]
      · rw [if_neg hc]
        cases hesp : bootEsp env diskParent config <;> rfl
    rw [htrace] at hne
    unfold bootEspFromBls at hne
    cases hr : config.root with
    | image p => rw [hr] at hne; simp at hne
    | native p =>
      rw [hr] at hne
      refine ⟨⟨p, rfl⟩, ?_⟩
      by_cases hex : env.efiFwDirExists = true
      · exact hex
      · exfalso
        have hbios : bootFirmware env = Firmware.bios := by
          unfold bootFirmware
          rw [Bool.not_eq_true] at hex
          rw [hex]
          rfl
        rw [hbios] at hne
        exact hne rfl

/-- Witness for C6: in image mode with `envC6` (whose BLS variables are all
present) no EFI variable is read and the ESP is the GPT-scan result. -/
theorem claim_C6_witness :
    (BootEnvironment.new envC6 (some ["sdb".data]) cfgImage).2 = [] ∧
    beC6.esp = Option.bind (some ["sdb".data]) envC6.gptEspOf := by
  have h := (claim_C6_bls_gating envC6 (some ["sdb".data])).1
    ["tmp".data, "img".data] []
  exact ⟨h.1, h.2 beC6 [] rfl⟩

/-! ## Device-chain lemmas -/

theorem chainFold_struct (chainAt : Str → Option (List Str)) :
    ∀ (slaves : List Str) (acc l : List Str),
      chainFold chainAt acc slaves = some l →
      ∃ subs : List (List Str),
        List.Forall₂ (fun s sub => chainAt s = some sub) slaves subs ∧
        l = acc ++ (List.zipWith (fun s sub => s :: sub) slaves subs).flatten := by
  intro slaves
  induction slaves with
  | nil =>
    intro acc l h
    simp only [chainFold, Option.some.injEq] at h
    subst h
    exact ⟨[], List.Forall₂.nil, by simp⟩
  | cons s rest ih =>
    intro acc l h
    simp only [chainFold] at h
    cases hs : chainAt s with
    | none => rw [hs] at h; cases h
    | some sub =>
      rw [hs] at h
      obtain ⟨subs, hfa, hl⟩ := ih (acc ++ s :: sub) l h
      refine ⟨sub :: subs, List.Forall₂.cons hs hfa, ?_⟩
      subst hl
      simp [List.append_assoc]

theorem chainFold_complete (chainAt : Str → Option (List Str))
    (slaves : List Str) (subs : List (List Str))
    (h : List.Forall₂ (fun s sub => chainAt s = some sub) slaves subs) :
    ∀ acc : List Str,
      chainFold chainAt acc slaves =
        some (acc ++ (List.zipWith (fun s sub => s :: sub) slaves subs).flatten) := by
  induction h with
  | nil => intro acc; simp [chainFold]
  | cons hab hrest ih =>
    intro acc
    simp only [chainFold, hab]
    rw [ih]
    simp [List.append_assoc]

theorem getDeviceChain_zero (fs : SysfsSlaves) (dev : Str) :
    getDeviceChain fs 0 dev = none := rfl

theorem getDeviceChain_succ (fs : SysfsSlaves) (fuel : Nat) (dev : Str) :
    getDeviceChain fs (fuel + 1) dev =
      match slavesOf fs dev with
      | none => some []
      | some slaves => chainFold (getDeviceChain fs fuel) [] slaves := rfl

theorem getDeviceChain_mono_succ (fs : SysfsSlaves) :
    ∀ (fuel : Nat) (dev : Str) (l : List Str),
      getDeviceChain fs fuel dev = some l →
      getDeviceChain fs (fuel + 1) dev = some l := by
  intro fuel
  induction fuel with
  | zero => intro dev l h; rw [getDeviceChain_zero] at h; cases h
  | succ f ih =>
    intro dev l h
    rw [getDeviceChain_succ] at h
    rw [getDeviceChain_succ]
    cases hs : slavesOf fs dev with
    | none => rw [hs] at h; exact h
    | some slaves =>
      rw [hs] at h
      obtain ⟨subs, hfa, hl⟩ :=
        chainFold_struct (getDeviceChain fs f) slaves [] l h
      have hfa' : List.Forall₂
          (fun s sub => getDeviceChain fs (f + 1) s = some sub) slaves subs := by
        refine List.Forall₂.imp ?_ hfa
        intro s sub hss
        exact ih s sub hss
      show chainFold (getDeviceChain fs (f + 1)) [] slaves = some l
      rw [chainFold_complete _ slaves subs hfa' [], hl]

theorem getDeviceChain_mono (fs : SysfsSlaves) {g f : Nat} (hgf : g ≤ f) :
    ∀ (dev : Str) (l : List Str),
      getDeviceChain fs g dev = some l → getDeviceChain fs f dev = some l := by
  induction hgf with
  | refl => intro dev l h; exact h
  | step hle ih =>
    intro dev l h
    exact getDeviceChain_mono_succ fs _ dev l (ih dev l h)

theorem chainDescend (chainAt : Str → Option (List Str))
    (slaves : List Str) (subs : List (List Str))
    (h : List.Forall₂ (fun s sub => chainAt s = some sub) slaves subs) :
    ∀ d ∈ (List.zipWith (fun s sub => s :: sub) slaves subs).flatten,
      ∃ s sub, chainAt s = some sub ∧ (d = s ∨ d ∈ sub) ∧
        sub.length + 1 ≤
          (List.zipWith (fun s sub => s :: sub) slaves subs).flatten.length := by
  induction h with
  | nil => intro d hd; simp at hd
  | cons hab hrest ih =>
    intro d hd
    rename_i a b l₁ l₂
    simp only [List.zipWith_cons_cons, List.flatten_cons] at hd ⊢
    rcases List.mem_append.mp hd with hin | hin
    · refine ⟨a, b, hab, ?_, ?_⟩
      · rcases List.mem_cons.mp hin with h1 | h1
        · exact Or.inl h1
        · exact Or.inr h1
      · simp only [List.length_append, List.length_cons]
        omega
    · obtain ⟨s, sub, hss, hd', hlen⟩ := ih d hin
      refine ⟨s, sub, hss, hd', ?_⟩
      simp only [List.length_append, List.length_cons] at hlen ⊢
      omega

theorem getDeviceChain_descend (fs : SysfsSlaves) :
    ∀ (fuel : Nat) (dev : Str) (l : List Str),
      getDeviceChain fs fuel dev = some l →
      ∀ d ∈ l, ∃ g, g < fuel ∧
        ∃ l', getDeviceChain fs g d = some l' ∧ l'.length < l.length := by
  intro fuel
  induction fuel with
  | zero => intro dev l h; rw [getDeviceChain_zero] at h; cases h
  | succ f ih =>
    intro dev l h d hd
    rw [getDeviceChain_succ] at h
    cases hs : slavesOf fs dev with
    | none =>
      rw [hs] at h
      have h' : some ([] : List Str) = some l := h
      cases h'
      simp at hd
    | some slaves =>
      rw [hs] at h
      obtain ⟨subs, hfa, hl⟩ :=
        chainFold_struct (getDeviceChain fs f) slaves [] l h
      subst hl
      simp only [List.nil_append] at hd ⊢
      obtain ⟨s, sub, hss, hd', hlen⟩ := chainDescend _ slaves subs hfa d hd
      rcases hd' with rfl | hmem
      · exact ⟨f, Nat.lt_succ_self f, sub, hss, by omega⟩
      · obtain ⟨g, hgf, l'', hch, hl''⟩ := ih s sub hss d hmem
        exact ⟨g, Nat.lt_succ_of_lt hgf, l'', hch, by omega⟩

/-! ## Claim theorems: device chain -/

/-- C9 counterexample: a device whose `slaves/` directory exists but is empty
also yields the empty chain, so "empty exactly when no `slaves/` directory
exists" fails in the right-to-left direction. -/
theorem claim_C9_counterexample :
    getDeviceChain [("sda1".data, ([] : List Str))] 1 "sda1".data = some [] ∧
    slavesOf [("sda1".data, ([] : List Str))] "sda1".data = some [] ∧
    slavesOf [("sda1".data, ([] : List Str))] "sda1".data ≠ none := by
  exact ⟨rfl, rfl, by decide⟩

/-- C9 (amended): whenever `get_device_chain` returns, the result never
contains the starting device; it is empty exactly when the device's `slaves/`
directory is missing **or empty**; and when slaves exist the result is their
names in readdir order, each immediately followed by its own recursively
computed chain (depth-first). -/
theorem claim_C9_device_chain (fs : SysfsSlaves) (fuel : Nat) (dev : Str)
    (l : List Str) (h : getDeviceChain fs fuel dev = some l) :
    dev ∉ l ∧
    (l = [] ↔ (slavesOf fs dev = none ∨ slavesOf fs dev = some [])) ∧
    (∀ slaves, slavesOf fs dev = some slaves →
      ∃ subs, List.Forall₂
          (fun s sub => getDeviceChain fs (fuel - 1) s = some sub) slaves subs ∧
        l = (List.zipWith (fun s sub => s :: sub) slaves subs).flatten) := by
  refine ⟨?_, ?_, ?_⟩
  · intro hmem
    obtain ⟨g, hgf, l', hch, hlen⟩ := getDeviceChain_descend fs fuel dev l h dev hmem
    have hmono := getDeviceChain_mono fs (Nat.le_of_lt hgf) dev l' hch
    rw [h] at hmono
    cases hmono
    exact absurd hlen (lt_irrefl _)
  · cases fuel with
    | zero => rw [getDeviceChain_zero] at h; cases h
    | succ f =>
      rw [getDeviceChain_succ] at h
      cases hs : slavesOf fs dev with
      | none =>
        rw [hs] at h
        have h' : some ([] : List Str) = some l := h
        cases h'
        simp
      | some slaves =>
        rw [hs] at h
        obtain ⟨subs, hfa, hl⟩ :=
          chainFold_struct (getDeviceChain fs f) slaves [] l h
        subst hl
        cases slaves with
        | nil =>
          cases hfa
          simp
        | cons s rest =>
          cases hfa with
          | cons hab hrest =>
            rename_i b l₂
            simp only [List.nil_append, List.zipWith_cons_cons, List.flatten_cons]
            constructor
            · intro habs
              simp at habs
            · intro hor
              rcases hor with h1 | h1
              · exact Option.noConfusion h1
              · exact List.noConfusion (Option.some.inj h1)
  · intro slaves hsl
    cases fuel with
    | zero => rw [getDeviceChain_zero] at h; cases h
    | succ f =>
      rw [getDeviceChain_succ, hsl] at h
      obtain ⟨subs, hfa, hl⟩ :=
        chainFold_struct (getDeviceChain fs f) slaves [] l h
      subst hl
      exact ⟨subs, hfa, by simp⟩

/-- Witness for C9 at the concrete two-slave scenario: the chain of `dm-0`
does not contain `dm-0`. -/
theorem claim_C9_witness :
    "dm-0".data ∉ ["sda1".data, "sdb1".data] :=
  (claim_C9_device_chain sysfsC9 3 "dm-0".data ["sda1".data, "sdb1".data] rfl).1

/-! ## Boot-filesystem lemmas -/

theorem fsLookup_filter_keep (keep : FilePath × Str → Bool) (q : FilePath) :
    ∀ fs : BootFs, (∀ e : FilePath × Str, e.1 = q → keep e = true) →
      fsLookup (fs.filter keep) q = fsLookup fs q := by
  intro fs h
  induction fs with
  | nil => rfl
  | cons a rest ih =>
    rw [List.filter_cons]
    by_cases hk : keep a = true
    · rw [if_pos hk]
      by_cases haq : a.1 = q
      · simp [fsLookup, haq]
      · simp [fsLookup, haq, ih]
    · rw [if_neg hk]
      have haq : ¬ a.1 = q := fun hc => hk (h a hc)
      simp [fsLookup, haq, ih]

theorem fsLookup_filter_drop (keep : FilePath × Str → Bool) (q : FilePath) :
    ∀ fs : BootFs, (∀ e : FilePath × Str, e.1 = q → keep e = false) →
      fsLookup (fs.filter keep) q = none := by
  intro fs h
  induction fs with
  | nil => rfl
  | cons a rest ih =>
    rw [List.filter_cons]
    by_cases hk : keep a = true
    · rw [if_pos hk]
      have haq : ¬ a.1 = q := fun hc => by
        rw [h a hc] at hk
        exact Bool.false_ne_true hk
      simp [fsLookup, haq, ih]
    · rw [if_neg hk]
      exact ih

theorem fsLookup_fsWrite (fs : BootFs) (p : FilePath) (c : Str) (q : FilePath) :
    fsLookup (fsWrite fs p c) q = if q = p then some c else fsLookup fs q := by
  unfold fsWrite
  by_cases hqp : q = p
  · subst hqp
    simp [fsLookup]
  · rw [if_neg hqp]
    have hpq : ¬ p = q := fun hc => hqp hc.symm
    show (if p = q then some c else fsLookup (fs.filter _) q) = fsLookup fs q
    rw [if_neg hpq]
    refine fsLookup_filter_keep _ q fs ?_
    intro e he
    subst he
    simp
    intro hc
    exact hqp hc

theorem fsLookup_fsRemoveFile (fs : BootFs) (p q : FilePath) :
    fsLookup (fsRemoveFile fs p) q = if q = p then none else fsLookup fs q := by
  unfold fsRemoveFile
  by_cases hqp : q = p
  · subst hqp
    rw [if_pos rfl]
    refine fsLookup_filter_drop _ q fs ?_
    intro e he
    subst he
    simp
  · rw [if_neg hqp]
    refine fsLookup_filter_keep _ q fs ?_
    intro e he
    subst he
    simp
    intro hc
    exact hqp hc

theorem fsLookup_fsRemoveTree (fs : BootFs) (d q : FilePath) :
    fsLookup (fsRemoveTree fs d) q = if d <+: q then none else fsLookup fs q := by
  unfold fsRemoveTree
  by_cases hdq : d <+: q
  · rw [if_pos hdq]
    refine fsLookup_filter_drop _ q fs ?_
    intro e he
    subst he
    simp [List.isPrefixOf_iff_prefix]
    exact hdq
  · rw [if_neg hdq]
    refine fsLookup_filter_keep _ q fs ?_
    intro e he
    subst he
    simp only [Bool.not_eq_true']
    rw [← Bool.not_eq_true, List.isPrefixOf_iff_prefix]
    exact hdq

theorem fsWrite_mem (fs : BootFs) (p : FilePath) (c : Str) :
    ∀ pc ∈ fsWrite fs p c, pc.1 = p ∨ pc ∈ fs := by
  intro pc hpc
  unfold fsWrite at hpc
  rcases List.mem_cons.mp hpc with rfl | hmem
  · exact Or.inl rfl
  · exact Or.inr (List.mem_filter.mp hmem).1

/-! ## Copy-fold lemmas -/

theorem copyAtomic_ok {fs fs' : BootFs} {src dest : FilePath}
    (h : copyAtomic fs src dest = Except.ok fs') :
    ∃ c, fsLookup fs src = some c ∧ fs' = fsWrite fs dest c := by
  unfold copyAtomic at h
  cases hs : fsLookup fs src with
  | none => rw [hs] at h; cases h
  | some c =>
    rw [hs] at h
    cases h
    exact ⟨c, rfl, rfl⟩

theorem copyFold_preserves (q : FilePath) :
    ∀ (pairs : List (FilePath × FilePath)) (fs fs' : BootFs),
      exceptFoldlM (fun f sd => copyAtomic f sd.1 sd.2) fs pairs =
        Except.ok fs' →
      (∀ sd ∈ pairs, sd.2 ≠ q) →
      fsLookup fs' q = fsLookup fs q := by
  intro pairs
  induction pairs with
  | nil =>
    intro fs fs' h _
    simp only [exceptFoldlM, Except.ok.injEq] at h
    subst h
    rfl
  | cons a rest ih =>
    intro fs fs' h hne
    simp only [exceptFoldlM] at h
    cases hc : copyAtomic fs a.1 a.2 with
    | error e => rw [hc] at h; cases h
    | ok f₁ =>
      rw [hc] at h
      obtain ⟨c, -, rfl⟩ := copyAtomic_ok hc
      have step : fsLookup (fsWrite fs a.2 c) q = fsLookup fs q := by
        rw [fsLookup_fsWrite, if_neg]
        intro hqa
        exact hne a (List.mem_cons_self a rest) hqa.symm
      rw [ih _ fs' h (fun sd hsd => hne sd (List.mem_cons_of_mem a hsd)), step]

theorem copyFold_mem (pairs : List (FilePath × FilePath)) :
    ∀ (fs fs' : BootFs),
      exceptFoldlM (fun f sd => copyAtomic f sd.1 sd.2) fs pairs =
        Except.ok fs' →
      ∀ pc ∈ fs', (∃ sd ∈ pairs, pc.1 = sd.2) ∨ pc ∈ fs := by
  induction pairs with
  | nil =>
    intro fs fs' h pc hpc
    simp only [exceptFoldlM, Except.ok.injEq] at h
    subst h
    exact Or.inr hpc
  | cons a rest ih =>
    intro fs fs' h pc hpc
    simp only [exceptFoldlM] at h
    cases hc : copyAtomic fs a.1 a.2 with
    | error e => rw [hc] at h; cases h
    | ok f₁ =>
      rw [hc] at h
      obtain ⟨c, -, rfl⟩ := copyAtomic_ok hc
      rcases ih _ fs' h pc hpc with ⟨sd, hsd, heq⟩ | hmem
      · exact Or.inl ⟨sd, List.mem_cons_of_mem a hsd, heq⟩
      · rcases fsWrite_mem fs a.2 c pc hmem with heq | hmem'
        · exact Or.inl ⟨a, List.mem_cons_self a rest, heq⟩
        · exact Or.inr hmem'

theorem copyFold_establishes :
    ∀ (pairs : List (FilePath × FilePath)) (fs fs' : BootFs),
      exceptFoldlM (fun f sd => copyAtomic f sd.1 sd.2) fs pairs =
        Except.ok fs' →
      (pairs.map (fun sd => sd.2)).Nodup →
      (∀ sd ∈ pairs, ∀ sd' ∈ pairs, sd.1 ≠ sd'.2) →
      ∀ sd ∈ pairs, fsLookup fs' sd.2 = fsLookup fs sd.1 ∧
        fsLookup fs' sd.1 = fsLookup fs sd.1 := by
  intro pairs
  induction pairs with
  | nil =>
    intro fs fs' _ _ _ sd hsd
    simp at hsd
  | cons a rest ih =>
    intro fs fs' h hnd hsd'
    simp only [exceptFoldlM] at h
    cases hc : copyAtomic fs a.1 a.2 with
    | error e => rw [hc] at h; cases h
    | ok f₁ =>
      rw [hc] at h
      obtain ⟨c, hsrc, rfl⟩ := copyAtomic_ok hc
      simp only [List.map_cons, List.nodup_cons] at hnd
      intro sd hsd
      rcases List.mem_cons.mp hsd with rfl | hmem
      · constructor
        · have hpres : fsLookup fs' sd.2 = fsLookup (fsWrite fs sd.2 c) sd.2 := by
            refine copyFold_preserves sd.2 rest _ fs' h ?_
            intro sd'' hsd'' heq
            exact hnd.1 (List.mem_map.mpr ⟨sd'', hsd'', heq⟩)
          rw [hpres, fsLookup_fsWrite, if_pos rfl, hsrc]
        · have hne1 : sd.1 ≠ sd.2 :=
            hsd' sd (List.mem_cons_self sd rest) sd (List.mem_cons_self sd rest)
          have hpres : fsLookup fs' sd.1 = fsLookup (fsWrite fs sd.2 c) sd.1 := by
            refine copyFold_preserves sd.1 rest _ fs' h ?_
            intro sd'' hsd'' heq
            exact hsd' sd (List.mem_cons_self sd rest) sd''
              (List.mem_cons_of_mem sd hsd'') heq.symm
          rw [hpres, fsLookup_fsWrite, if_neg hne1]
      · have hstep1 : fsLookup (fsWrite fs a.2 c) sd.1 = fsLookup fs sd.1 := by
          rw [fsLookup_fsWrite, if_neg]
          exact hsd' sd (List.mem_cons_of_mem a hmem) a (List.mem_cons_self a rest)
        have := ih _ fs' h hnd.2
          (fun x hx y hy => hsd' x (List.mem_cons_of_mem a hx) y
            (List.mem_cons_of_mem a hy)) sd hmem
        rw [this.1, this.2, hstep1]
        exact ⟨rfl, rfl⟩

/-! ## Path-shape lemmas for install and cleanup -/

theorem entryConfPath_eq (bootRoot : FilePath) (schema : Schema) (e : Entry) :
    entryConfPath bootRoot schema e =
      bootRoot ++ "loader".data :: "entries".data :: [e.id schema ++ ".conf".data] := by
  unfold entryConfPath loaderEntriesDir
  rw [List.append_assoc]
  rfl

theorem entryKernelDir_eq (bootRoot : FilePath) (schema : Schema) (e : Entry) :
    entryKernelDir bootRoot schema e =
      bootRoot ++ ["EFI".data, (e.schema.getD schema).osNamespace] := rfl

theorem efi_not_prefix_loader (bootRoot : FilePath) (t₁ t₂ : List Str) :
    ¬ (bootRoot ++ "EFI".data :: t₁ <+: bootRoot ++ "loader".data :: t₂) := by
  intro h
  rw [List.prefix_append_right_inj, List.cons_prefix_cons] at h
  exact absurd h.1 (by decide)

theorem loader_ne_efi (bootRoot : FilePath) (t₁ t₂ : List Str) :
    bootRoot ++ "loader".data :: t₁ ≠ bootRoot ++ "EFI".data :: t₂ := by
  intro h
  have h' := List.append_cancel_left h
  have : "loader".data = "EFI".data := (List.cons.injEq _ _ _ _).mp h' |>.1
  exact absurd this (by decide)

theorem changeset_dest_shape {bootRoot : FilePath} {schema : Schema} {e : Entry}
    {cs : List (FilePath × FilePath)}
    (hcs : entryChangeset bootRoot schema e = some cs) :
    ∀ sd ∈ cs, ∃ n, n ≠ [] ∧ sd.2 = entryKernelDir bootRoot schema e ++ n ∧
      (∀ osr ns, e.schema.getD schema = Schema.legacy osr ns → n.length = 1) ∧
      ((∀ osr ns, e.schema.getD schema ≠ Schema.legacy osr ns) →
        ∃ name, n = [e.kernel.version, name]) := by
  intro sd hsd
  unfold entryChangeset at hcs
  cases hvm : entryVmlinuz bootRoot schema e with
  | none => rw [hvm] at hcs; cases hcs
  | some vm =>
    rw [hvm] at hcs
    simp only [Option.map_some', Option.some.injEq] at hcs
    subst hcs
    unfold entryVmlinuz at hvm
    rcases List.mem_cons.mp hsd with rfl | hmem
    · cases hname : e.installedKernelName schema with
      | none => rw [hname] at hvm; cases hvm
      | some n =>
        rw [hname] at hvm
        simp only [Option.map_some', Option.some.injEq] at hvm
        unfold Entry.installedKernelName at hname
        refine ⟨n, ?_, ?_, ?_, ?_⟩
        · cases heff : e.schema.getD schema <;> rw [heff] at hname <;>
            simp only [Option.map_eq_some', Option.some.injEq] at hname
          · obtain ⟨f, -, rfl⟩ := hname
            simp
          · rw [← hname]; simp
          · rw [← hname]; simp
        · exact hvm.symm ▸ rfl
        · intro osr ns heff
          rw [heff] at hname
          simp only [Option.map_eq_some'] at hname
          obtain ⟨f, -, rfl⟩ := hname
          rfl
        · intro hne
          cases heff : e.schema.getD schema with
          | legacy osr ns => exact absurd heff (hne osr ns)
          | blsforme osr =>
            rw [heff] at hname
            simp only [Option.some.injEq] at hname
            exact ⟨"vmlinuz".data, hname.symm⟩
          | osInfo info =>
            rw [heff] at hname
            simp only [Option.some.injEq] at hname
            exact ⟨"vmlinuz".data, hname.symm⟩
    · unfold entryInitrdPairs at hmem
      obtain ⟨asset, -, hasset⟩ := List.mem_filterMap.mp hmem
      cases hname : e.installedAssetName schema asset with
      | none => rw [hname] at hasset; cases hasset
      | some n =>
        rw [hname] at hasset
        simp only [Option.map_some', Option.some.injEq] at hasset
        subst hasset
        unfold Entry.installedAssetName at hname
        refine ⟨n, ?_, rfl, ?_, ?_⟩
        · cases heff : e.schema.getD schema <;> rw [heff] at hname
          · cases hak : asset.kind <;> rw [hak] at hname <;>
              simp only [Option.map_eq_some'] at hname <;>
              first
              | (obtain ⟨f, -, rfl⟩ := hname; simp)
              | cases hname
          · cases hfn : fileName asset.path <;> rw [hfn] at hname
            · cases hname
            · cases hak : asset.kind <;> rw [hak] at hname <;>
                first
                | (simp only [Option.some.injEq] at hname; rw [← hname]; simp)
                | cases hname
          · cases hfn : fileName asset.path <;> rw [hfn] at hname
            · cases hname
            · cases hak : asset.kind <;> rw [hak] at hname <;>
                first
                | (simp only [Option.some.injEq] at hname; rw [← hname]; simp)
                | cases hname
        · intro osr ns heff
          rw [heff] at hname
          cases hak : asset.kind <;> rw [hak] at hname <;>
            first
            | (simp only [Option.map_eq_some'] at hname;
               obtain ⟨f, -, rfl⟩ := hname; rfl)
            | cases hname
        · intro hne
          cases heff : e.schema.getD schema with
          | legacy osr ns => exact absurd heff (hne osr ns)
          | blsforme osr =>
            rw [heff] at hname
            cases hfn : fileName asset.path <;> rw [hfn] at hname
            · cases hname
            · cases hak : asset.kind <;> rw [hak] at hname <;>
                first
                | (simp only [Option.some.injEq] at hname;
                   exact ⟨_, hname.symm⟩)
                | cases hname
          | osInfo info =>
            rw [heff] at hname
            cases hfn : fileName asset.path <;> rw [hfn] at hname
            · cases hname
            · cases hak : asset.kind <;> rw [hak] at hname <;>
                first
                | (simp only [Option.some.injEq] at hname;
                   exact ⟨_, hname.symm⟩)
                | cases hname

theorem changeset_dest_efiShape {bootRoot : FilePath} {schema : Schema}
    {e : Entry} {cs : List (FilePath × FilePath)}
    (hcs : entryChangeset bootRoot schema e = some cs) :
    ∀ sd ∈ cs, ∃ t, sd.2 = bootRoot ++ "EFI".data :: t := by
  intro sd hsd
  obtain ⟨n, -, hshape, -, -⟩ := changeset_dest_shape hcs sd hsd
  refine ⟨(e.schema.getD schema).osNamespace :: n, ?_⟩
  rw [hshape, entryKernelDir_eq, List.append_assoc]
  rfl

theorem changeset_dest_bootRoot {bootRoot : FilePath} {schema : Schema}
    {e : Entry} {cs : List (FilePath × FilePath)}
    (hcs : entryChangeset bootRoot schema e = some cs) :
    ∀ sd ∈ cs, bootRoot <+: sd.2 := by
  intro sd hsd
  obtain ⟨t, ht⟩ := changeset_dest_efiShape hcs sd hsd
  rw [ht]
  exact List.prefix_append bootRoot _

theorem confPath_ne_dest {bootRoot : FilePath} {schema : Schema}
    {e e' : Entry} {cs : List (FilePath × FilePath)}
    (hcs : entryChangeset bootRoot schema e = some cs) :
    ∀ sd ∈ cs, entryConfPath bootRoot schema e' ≠ sd.2 := by
  intro sd hsd
  obtain ⟨t, ht⟩ := changeset_dest_efiShape hcs sd hsd
  rw [ht, entryConfPath_eq]
  exact loader_ne_efi bootRoot _ _

theorem install_inv {bootRoot : FilePath} {schema : Schema} {fs : BootFs}
    {cm : Str} {e : Entry} {fs' : BootFs} {evs : List WriteEvent}
    {r : InstallResult}
    (h : install bootRoot schema fs cm e = Except.ok (fs', evs, r)) :
    ∃ vm fsMid cs,
      entryVmlinuz bootRoot schema e = some vm ∧
      entryChangeset bootRoot schema e = some cs ∧
      cs = ((e.sysroot.getD []) ++ e.kernel.image, vm) ::
        entryInitrdPairs bootRoot schema e ∧
      exceptFoldlM (fun f sd => copyAtomic f sd.1 sd.2) fs
        (changedFiles fs cs) = Except.ok fsMid ∧
      fs' = fsWrite fsMid (entryConfPath bootRoot schema e)
        (generateEntry schema
          (renderPath ((entryKernelDir bootRoot schema e).drop bootRoot.length))
          cm e) ∧
      evs = (changedFiles fs cs).map (fun sd => WriteEvent.copied sd.2) ++
        [WriteEvent.wroteConf (entryConfPath bootRoot schema e)] ∧
      r = { loaderConf := entryConfPath bootRoot schema e,
            kernelDir := vm.dropLast } := by
  unfold install at h
  cases hvm : entryVmlinuz bootRoot schema e with
  | none => rw [hvm] at h; cases h
  | some vm =>
    rw [hvm] at h
    have h' : (match exceptFoldlM (fun f sd => copyAtomic f sd.1 sd.2) fs
        (changedFiles fs (((e.sysroot.getD []) ++ e.kernel.image, vm) ::
          entryInitrdPairs bootRoot schema e)) with
      | Except.error err => Except.error err
      | Except.ok fs1 =>
        Except.ok (fsWrite fs1 (entryConfPath bootRoot schema e)
            (generateEntry schema
              (renderPath ((entryKernelDir bootRoot schema e).drop bootRoot.length))
              cm e),
          (changedFiles fs (((e.sysroot.getD []) ++ e.kernel.image, vm) ::
            entryInitrdPairs bootRoot schema e)).map
              (fun sd => WriteEvent.copied sd.2) ++
            [WriteEvent.wroteConf (entryConfPath bootRoot schema e)],
          { loaderConf := entryConfPath bootRoot schema e,
            kernelDir := vm.dropLast })) = Except.ok (fs', evs, r) := h
    clear h
    cases hfold : exceptFoldlM (fun f sd => copyAtomic f sd.1 sd.2) fs
        (changedFiles fs (((e.sysroot.getD []) ++ e.kernel.image, vm) ::
          entryInitrdPairs bootRoot schema e)) with
    | error err => rw [hfold] at h'; cases h'
    | ok fsMid =>
      rw [hfold] at h'
      simp only [Prod.mk.injEq, Except.ok.injEq] at h'
      obtain ⟨hfs, hevs, hr⟩ := h'
      refine ⟨vm, fsMid, _, rfl, ?_, rfl, hfold, hfs.symm, hevs.symm, hr.symm⟩
      unfold entryChangeset
      rw [hvm]
      rfl

theorem install_unchanged {bootRoot : FilePath} {schema : Schema} {fs : BootFs}
    {cm : Str} {e : Entry} {vm : FilePath}
    (hvm : entryVmlinuz bootRoot schema e = some vm)
    (hall : ∀ sd ∈ ((e.sysroot.getD []) ++ e.kernel.image, vm) ::
        entryInitrdPairs bootRoot schema e,
      fsLookup fs sd.1 = fsLookup fs sd.2) :
    install bootRoot schema fs cm e = Except.ok
      (fsWrite fs (entryConfPath bootRoot schema e)
        (generateEntry schema
          (renderPath ((entryKernelDir bootRoot schema e).drop bootRoot.length))
          cm e),
       [WriteEvent.wroteConf (entryConfPath bootRoot schema e)],
       { loaderConf := entryConfPath bootRoot schema e,
         kernelDir := vm.dropLast }) := by
  unfold install
  rw [hvm]
  have hnil : changedFiles fs (((e.sysroot.getD []) ++ e.kernel.image, vm) ::
      entryInitrdPairs bootRoot schema e) = [] := by
    unfold changedFiles
    rw [List.filter_eq_nil_iff]
    intro sd hsd
    simp [hall sd hsd]
  show ((match exceptFoldlM (fun f sd => copyAtomic f sd.1 sd.2) fs
      (changedFiles fs (((e.sysroot.getD []) ++ e.kernel.image, vm) ::
        entryInitrdPairs bootRoot schema e)) with
    | Except.error err => Except.error err
    | Except.ok fs1 =>
      Except.ok (fsWrite fs1 (entryConfPath bootRoot schema e)
          (generateEntry schema
            (renderPath ((entryKernelDir bootRoot schema e).drop bootRoot.length))
            cm e),
        (changedFiles fs (((e.sysroot.getD []) ++ e.kernel.image, vm) ::
          entryInitrdPairs bootRoot schema e)).map
            (fun sd => WriteEvent.copied sd.2) ++
          [WriteEvent.wroteConf (entryConfPath bootRoot schema e)],
        ({ loaderConf := entryConfPath bootRoot schema e,
           kernelDir := vm.dropLast } : InstallResult))) :
      Except BootloaderError (BootFs × List WriteEvent × InstallResult)) =
    Except.ok
      (fsWrite fs (entryConfPath bootRoot schema e)
        (generateEntry schema
          (renderPath ((entryKernelDir bootRoot schema e).drop bootRoot.length))
          cm e),
       [WriteEvent.wroteConf (entryConfPath bootRoot schema e)],
       ({ loaderConf := entryConfPath bootRoot schema e,
          kernelDir := vm.dropLast } : InstallResult))
  rw [hnil]
  rfl

/-! ## Cleanup characterisation lemmas -/

theorem obsoleteConfs_mem (fs : BootFs) (bootRoot : FilePath) (schema : Schema)
    (installed : List InstallResult) (f : FilePath) :
    f ∈ obsoleteConfs fs bootRoot schema installed ↔
      ∃ name, f = loaderEntriesDir bootRoot ++ [name] ∧
        name ∈ dirEntryNames fs (loaderEntriesDir bootRoot) ∧
        (∃ pre ∈ cleanupPrefixSet schema, pre.isPrefixOf name = true) ∧
        ∀ r ∈ installed, r.loaderConf ≠ f := by
  simp only [obsoleteConfs, cleanupLoaderFiles, List.mem_filter, List.mem_map,
    Bool.not_eq_true', List.any_eq_false, List.any_eq_true, beq_iff_eq]
  constructor
  · rintro ⟨⟨name, ⟨hnm, hpre⟩, rfl⟩, hnot⟩
    exact ⟨name, rfl, hnm, hpre, fun r hr hEq => hnot r hr hEq⟩
  · rintro ⟨name, rfl, hnm, hpre, hnot⟩
    exact ⟨⟨name, ⟨hnm, hpre⟩, rfl⟩, fun r hr hEq => hnot r hr hEq⟩

theorem obsoleteKernelDirs_mem (fs : BootFs) (bootRoot : FilePath)
    (schema : Schema) (installed : List InstallResult) (d : FilePath) :
    d ∈ obsoleteKernelDirs fs bootRoot schema installed ↔
      ∃ ns sub, ns ∈ cleanupNamespaces schema ∧
        sub ∈ dirSubdirNames fs (bootRoot ++ ["EFI".data, ns]) ∧
        d = bootRoot ++ ["EFI".data, ns, sub] ∧
        ∀ r ∈ installed, r.kernelDir ≠ d := by
  simp only [obsoleteKernelDirs, cleanupKernelDirs, List.mem_filter,
    List.mem_flatten, List.mem_map, Bool.not_eq_true', List.any_eq_false,
    List.any_eq_true, beq_iff_eq]
  constructor
  · rintro ⟨⟨l, ⟨ns, hns, rfl⟩, hd⟩, hnot⟩
    obtain ⟨sub, hsub, rfl⟩ := List.mem_map.mp hd
    exact ⟨ns, sub, hns, hsub, rfl, fun r hr hEq => hnot r hr hEq⟩
  · rintro ⟨ns, sub, hns, hsub, rfl, hnot⟩
    refine ⟨⟨(dirSubdirNames fs (bootRoot ++ ["EFI".data, ns])).map
      (fun d => bootRoot ++ ["EFI".data, ns, d]), ⟨ns, hns, rfl⟩, ?_⟩,
      fun r hr hEq => hnot r hr hEq⟩
    exact List.mem_map.mpr ⟨sub, hsub, rfl⟩

theorem dirSubdirNames_mem (fs : BootFs) (dir : FilePath) (sub : Str) :
    sub ∈ dirSubdirNames fs dir ↔
      ∃ pc ∈ fs, dir <+: pc.1 ∧ dir.length + 1 < pc.1.length ∧
        (pc.1.drop dir.length).head? = some sub := by
  simp only [dirSubdirNames, List.mem_dedup, List.mem_filterMap]
  constructor
  · rintro ⟨pc, hpc, hcond⟩
    by_cases hc : (dir.isPrefixOf pc.1 && decide (dir.length + 1 < pc.1.length)) = true
    · rw [if_pos hc] at hcond
      simp only [Bool.and_eq_true, List.isPrefixOf_iff_prefix,
        decide_eq_true_eq] at hc
      exact ⟨pc, hpc, hc.1, hc.2, hcond⟩
    · rw [if_neg hc] at hcond
      cases hcond
  · rintro ⟨pc, hpc, hp, hl, hh⟩
    refine ⟨pc, hpc, ?_⟩
    rw [if_pos]
    · exact hh
    · simp only [Bool.and_eq_true, List.isPrefixOf_iff_prefix,
        decide_eq_true_eq]
      exact ⟨hp, hl⟩

/-- A subdirectory-listing witness: the full directory path with one more
component is a proper prefix of some stored path. -/
theorem dirSubdirNames_witness {fs : BootFs} {dir : FilePath} {sub : Str}
    (h : sub ∈ dirSubdirNames fs dir) :
    ∃ pc ∈ fs, (dir ++ [sub]) <+: pc.1 ∧ dir.length + 1 < pc.1.length := by
  obtain ⟨pc, hpc, hp, hl, hh⟩ := (dirSubdirNames_mem fs dir sub).mp h
  obtain ⟨t, ht⟩ := hp
  refine ⟨pc, hpc, ?_, hl⟩
  rw [← ht] at hh ⊢
  rw [List.drop_left] at hh
  cases t with
  | nil => cases hh
  | cons x t' =>
    simp only [List.head?_cons, Option.some.injEq] at hh
    subst hh
    rw [List.prefix_append_right_inj, List.cons_prefix_cons]
    exact ⟨rfl, List.nil_prefix⟩

/-! ## allDests decomposition -/

theorem allDests_cons (bootRoot : FilePath) (schema : Schema) (e : Entry)
    (rest : List Entry) :
    allDests bootRoot schema (e :: rest) =
      entryDestsOf bootRoot schema e ++ allDests bootRoot schema rest := by
  simp [allDests]

theorem mem_entryDestsOf {bootRoot : FilePath} {schema : Schema} {e : Entry}
    {cs : List (FilePath × FilePath)}
    (hcs : entryChangeset bootRoot schema e = some cs)
    {sd : FilePath × FilePath} (hsd : sd ∈ cs) :
    sd.2 ∈ entryDestsOf bootRoot schema e := by
  unfold entryDestsOf
  rw [hcs]
  exact List.mem_map_of_mem _ hsd

theorem mem_allDests {bootRoot : FilePath} {schema : Schema}
    {entries : List Entry} {e : Entry} (he : e ∈ entries)
    {cs : List (FilePath × FilePath)}
    (hcs : entryChangeset bootRoot schema e = some cs)
    {sd : FilePath × FilePath} (hsd : sd ∈ cs) :
    sd.2 ∈ allDests bootRoot schema entries := by
  unfold allDests
  rw [List.mem_flatten]
  exact ⟨entryDestsOf bootRoot schema e,
    List.mem_map_of_mem _ he, mem_entryDestsOf hcs hsd⟩

/-! ## Removal-fold lemmas -/

theorem removeFileFold_preserves (removable : FilePath → Bool) (q : FilePath) :
    ∀ (items : List FilePath) (fs : BootFs), (∀ f ∈ items, f ≠ q) →
      fsLookup (items.foldl
        (fun f c => if removable c then fsRemoveFile f c else f) fs) q =
      fsLookup fs q := by
  intro items
  induction items with
  | nil => intro fs _; rfl
  | cons a rest ih =>
    intro fs hne
    simp only [List.foldl_cons]
    rw [ih _ (fun f hf => hne f (List.mem_cons_of_mem a hf))]
    by_cases hr : removable a = true
    · rw [if_pos hr, fsLookup_fsRemoveFile, if_neg]
      intro hqa
      exact hne a (List.mem_cons_self a rest) hqa.symm
    · rw [if_neg hr]

theorem removeTreeFold_preserves (removable : FilePath → Bool) (q : FilePath) :
    ∀ (items : List FilePath) (fs : BootFs), (∀ d ∈ items, ¬ d <+: q) →
      fsLookup (items.foldl
        (fun f d => if removable d then fsRemoveTree f d else f) fs) q =
      fsLookup fs q := by
  intro items
  induction items with
  | nil => intro fs _; rfl
  | cons a rest ih =>
    intro fs hne
    simp only [List.foldl_cons]
    rw [ih _ (fun d hd => hne d (List.mem_cons_of_mem a hd))]
    by_cases hr : removable a = true
    · rw [if_pos hr, fsLookup_fsRemoveTree, if_neg]
      exact hne a (List.mem_cons_self a rest)
    · rw [if_neg hr]

theorem cleanup_lookup {bootRoot : FilePath} {schema : Schema}
    {removable : FilePath → Bool} {fs fs2 : BootFs}
    {installed : List InstallResult} {confs kdirs : List FilePath}
    (h : cleanupStaleEntries bootRoot schema removable fs installed =
      Except.ok (fs2, confs, kdirs)) (q : FilePath)
    (hc : ∀ f ∈ obsoleteConfs fs bootRoot schema installed, f ≠ q)
    (hk : ∀ d ∈ obsoleteKernelDirs fs bootRoot schema installed, ¬ d <+: q) :
    fsLookup fs2 q = fsLookup fs q := by
  unfold cleanupStaleEntries at h
  simp only [Prod.mk.injEq, Except.ok.injEq] at h
  obtain ⟨hfs2, -, -⟩ := h
  subst hfs2
  rw [removeTreeFold_preserves removable q _ _ hk,
    removeFileFold_preserves removable q _ _ hc]

theorem confPath_bootRoot_prefix (bootRoot : FilePath) (schema : Schema)
    (e : Entry) : bootRoot <+: entryConfPath bootRoot schema e := by
  rw [entryConfPath_eq]
  exact List.prefix_append bootRoot _

theorem install_effects {bootRoot : FilePath} {schema : Schema} {fs : BootFs}
    {cm : Str} {e : Entry} {fs' : BootFs} {evs : List WriteEvent}
    {r : InstallResult}
    (h : install bootRoot schema fs cm e = Except.ok (fs', evs, r))
    (hsrc : ∀ cs, entryChangeset bootRoot schema e = some cs →
      ∀ sd ∈ cs, ¬ bootRoot <+: sd.1)
    (hnd : (entryDestsOf bootRoot schema e).Nodup) :
    r = installResultOf bootRoot schema e ∧
    (∀ q, (∀ cs, entryChangeset bootRoot schema e = some cs →
        ∀ sd ∈ cs, sd.2 ≠ q) →
      entryConfPath bootRoot schema e ≠ q →
      fsLookup fs' q = fsLookup fs q) ∧
    (∀ pc ∈ fs', pc ∈ fs ∨ pc.1 ∈ entryDestsOf bootRoot schema e ∨
      pc.1 = entryConfPath bootRoot schema e) ∧
    (∀ cs, entryChangeset bootRoot schema e = some cs → ∀ sd ∈ cs,
      fsLookup fs' sd.2 = fsLookup fs sd.1 ∧
      fsLookup fs' sd.1 = fsLookup fs sd.1) := by
  obtain ⟨vm, fsMid, cs, hvm, hcs, hcseq, hfold, hfs', hevs, hr⟩ := install_inv h
  have hdestseq : entryDestsOf bootRoot schema e = cs.map (fun sd => sd.2) := by
    unfold entryDestsOf
    rw [hcs]
  have hndcs : (cs.map (fun sd => sd.2)).Nodup := by
    rw [← hdestseq]
    exact hnd
  have hsrccs : ∀ sd ∈ cs, ¬ bootRoot <+: sd.1 := hsrc cs hcs
  have hdestcs : ∀ sd ∈ cs, bootRoot <+: sd.2 := changeset_dest_bootRoot hcs
  have hNWsub : ∀ sd ∈ changedFiles fs cs, sd ∈ cs := by
    intro sd hsd
    exact (List.mem_filter.mp hsd).1
  have hNWnd : ((changedFiles fs cs).map (fun sd => sd.2)).Nodup := by
    refine List.Nodup.sublist ?_ hndcs
    exact List.Sublist.map _ (List.filter_sublist cs)
  have hNWsrcdest : ∀ a ∈ changedFiles fs cs, ∀ b ∈ changedFiles fs cs,
      a.1 ≠ b.2 := by
    intro a ha b hb hEq
    exact hsrccs a (hNWsub a ha) (hEq ▸ hdestcs b (hNWsub b hb))
  constructor
  · rw [hr]
    unfold installResultOf
    rw [hvm]
  refine ⟨?_, ?_, ?_⟩
  · intro q hqd hqc
    rw [hfs', fsLookup_fsWrite, if_neg (fun hc => hqc hc.symm)]
    refine copyFold_preserves q _ _ _ hfold ?_
    intro sd hsd
    exact hqd cs hcs sd (hNWsub sd hsd)
  · intro pc hpc
    rw [hfs'] at hpc
    rcases fsWrite_mem _ _ _ pc hpc with hconf | hmid
    · exact Or.inr (Or.inr hconf)
    · rcases copyFold_mem _ _ _ hfold pc hmid with ⟨sd, hsd, hEq⟩ | hfs
      · refine Or.inr (Or.inl ?_)
        rw [hdestseq, hEq]
        exact List.mem_map_of_mem _ (hNWsub sd hsd)
      · exact Or.inl hfs
  · intro csx hcsx sd hsd
    have hcc : csx = cs := by
      rw [hcsx] at hcs
      exact Option.some.inj hcs
    subst hcc
    have hconfne2 : entryConfPath bootRoot schema e ≠ sd.2 :=
      confPath_ne_dest hcsx sd hsd
    have hconfne1 : entryConfPath bootRoot schema e ≠ sd.1 := by
      intro hc
      exact hsrccs sd hsd (hc ▸ confPath_bootRoot_prefix bootRoot schema e)
    by_cases hNW : sd ∈ changedFiles fs csx
    · have hest := copyFold_establishes _ _ _ hfold hNWnd hNWsrcdest sd hNW
      constructor
      · rw [hfs', fsLookup_fsWrite, if_neg (fun hc => hconfne2 hc.symm), hest.1]
      · rw [hfs', fsLookup_fsWrite, if_neg (fun hc => hconfne1 hc.symm), hest.2]
    · have heq12 : fsLookup fs sd.1 = fsLookup fs sd.2 := by
        by_contra hne
        refine hNW (List.mem_filter.mpr ⟨hsd, ?_⟩)
        simp only [Bool.not_eq_true', beq_eq_false_iff_ne, ne_eq]
        exact hne
      have hpres2 : fsLookup fsMid sd.2 = fsLookup fs sd.2 := by
        refine copyFold_preserves sd.2 _ _ _ hfold ?_
        intro b hb hEq
        have hbsd : b = sd :=
          List.inj_on_of_nodup_map hndcs (hNWsub b hb) hsd hEq
        exact hNW (hbsd ▸ hb)
      have hpres1 : fsLookup fsMid sd.1 = fsLookup fs sd.1 := by
        refine copyFold_preserves sd.1 _ _ _ hfold ?_
        intro b hb hEq
        exact hsrccs sd hsd (hEq ▸ hdestcs b (hNWsub b hb))
      constructor
      · rw [hfs', fsLookup_fsWrite, if_neg (fun hc => hconfne2 hc.symm),
          hpres2, heq12]
      · rw [hfs', fsLookup_fsWrite, if_neg (fun hc => hconfne1 hc.symm),
          hpres1]

theorem syncStep_inv {bootRoot : FilePath} {schema : Schema}
    {cmdline exclusions : List Str}
    {st : BootFs × List WriteEvent × List InstallResult} {e : Entry}
    {st' : BootFs × List WriteEvent × List InstallResult}
    (h : syncStep bootRoot schema cmdline exclusions st e = Except.ok st') :
    ∃ fs' evs r,
      install bootRoot schema st.1 (entryFullCmdline cmdline exclusions e) e =
        Except.ok (fs', evs, r) ∧
      st' = (fs', st.2.1 ++ evs, st.2.2 ++ [r]) := by
  unfold syncStep at h
  cases hi : install bootRoot schema st.1
      (entryFullCmdline cmdline exclusions e) e with
  | error err => rw [hi] at h; cases h
  | ok out =>
    rw [hi] at h
    obtain ⟨fs', evs, r⟩ := out
    have h' : (Except.ok (fs', st.2.1 ++ evs, st.2.2 ++ [r]) :
        Except BootloaderError _) = Except.ok st' := h
    exact ⟨fs', evs, r, rfl, (Except.ok.inj h').symm⟩

theorem syncFold_run1 (bootRoot : FilePath) (schema : Schema)
    (cmdline exclusions : List Str) :
    ∀ (ents : List Entry) (fsCur : BootFs) (evs0 : List WriteEvent)
      (inst0 : List InstallResult) (fsEnd : BootFs) (evsEnd : List WriteEvent)
      (instEnd : List InstallResult),
      exceptFoldlM (syncStep bootRoot schema cmdline exclusions)
        (fsCur, evs0, inst0) ents = Except.ok (fsEnd, evsEnd, instEnd) →
      (∀ e ∈ ents, ∀ cs, entryChangeset bootRoot schema e = some cs →
        ∀ sd ∈ cs, ¬ bootRoot <+: sd.1) →
      (allDests bootRoot schema ents).Nodup →
      instEnd = inst0 ++ ents.map (installResultOf bootRoot schema) ∧
      (∀ q, (∀ e ∈ ents, ∀ cs, entryChangeset bootRoot schema e = some cs →
          ∀ sd ∈ cs, sd.2 ≠ q) →
        (∀ e ∈ ents, entryConfPath bootRoot schema e ≠ q) →
        fsLookup fsEnd q = fsLookup fsCur q) ∧
      (∀ pc ∈ fsEnd, pc ∈ fsCur ∨ pc.1 ∈ allDests bootRoot schema ents ∨
        ∃ e ∈ ents, pc.1 = entryConfPath bootRoot schema e) ∧
      (∀ e ∈ ents, ∀ cs, entryChangeset bootRoot schema e = some cs →
        ∀ sd ∈ cs, fsLookup fsEnd sd.2 = fsLookup fsCur sd.1 ∧
          fsLookup fsEnd sd.1 = fsLookup fsCur sd.1) := by
  intro ents
  induction ents with
  | nil =>
    intro fsCur evs0 inst0 fsEnd evsEnd instEnd h _ _
    simp only [exceptFoldlM, Except.ok.injEq, Prod.mk.injEq] at h
    obtain ⟨h1, h2, h3⟩ := h
    subst h1
    subst h3
    refine ⟨by simp, fun q _ _ => rfl, fun pc hpc => Or.inl hpc, ?_⟩
    intro e he
    exact absurd he (List.not_mem_nil e)
  | cons e rest ih =>
    intro fsCur evs0 inst0 fsEnd evsEnd instEnd h hsrc hnd
    simp only [exceptFoldlM] at h
    cases hstep : syncStep bootRoot schema cmdline exclusions
        (fsCur, evs0, inst0) e with
    | error err => rw [hstep] at h; cases h
    | ok stA =>
      rw [hstep] at h
      obtain ⟨fs', evs, r, hinst, hstA⟩ := syncStep_inv hstep
      subst hstA
      rw [allDests_cons, List.nodup_append] at hnd
      obtain ⟨hndE, hndRest, hdisj⟩ := hnd
      obtain ⟨hrA, hpresA, hmemA, hestA⟩ := install_effects hinst
        (fun cs hcs => hsrc e (List.mem_cons_self e rest) cs hcs) hndE
      obtain ⟨ihInst, ihPres, ihMem, ihEst⟩ := ih fs' (evs0 ++ evs)
        (inst0 ++ [r]) fsEnd evsEnd instEnd h
        (fun e' he' => hsrc e' (List.mem_cons_of_mem e he'))
        hndRest
      refine ⟨?_, ?_, ?_, ?_⟩
      · rw [ihInst, hrA]
        simp
      · intro q hqd hqc
        rw [ihPres q
            (fun e' he' => hqd e' (List.mem_cons_of_mem e he'))
            (fun e' he' => hqc e' (List.mem_cons_of_mem e he')),
          hpresA q (fun cs hcs => hqd e (List.mem_cons_self e rest) cs hcs)
            (hqc e (List.mem_cons_self e rest))]
      · intro pc hpc
        rcases ihMem pc hpc with hA | hdest | hconf
        · rcases hmemA pc hA with hf | hd | hc
          · exact Or.inl hf
          · refine Or.inr (Or.inl ?_)
            rw [allDests_cons]
            exact List.mem_append.mpr (Or.inl hd)
          · exact Or.inr (Or.inr ⟨e, List.mem_cons_self e rest, hc⟩)
        · refine Or.inr (Or.inl ?_)
          rw [allDests_cons]
          exact List.mem_append.mpr (Or.inr hdest)
        · obtain ⟨e', he', hc⟩ := hconf
          exact Or.inr (Or.inr ⟨e', List.mem_cons_of_mem e he', hc⟩)
      · intro e' he' cs hcs sd hsd
        rcases List.mem_cons.mp he' with rfl | hmem
        · have hest := hestA cs hcs sd hsd
          have hp2 : fsLookup fsEnd sd.2 = fsLookup fs' sd.2 := by
            refine ihPres sd.2 ?_ ?_
            · intro e'' he'' cs'' hcs'' sd'' hsd'' hEq
              exact hdisj (mem_entryDestsOf hcs hsd)
                (hEq ▸ mem_allDests he'' hcs'' hsd'')
            · intro e'' he''
              exact confPath_ne_dest hcs sd hsd
          have hp1 : fsLookup fsEnd sd.1 = fsLookup fs' sd.1 := by
            refine ihPres sd.1 ?_ ?_
            · intro e'' he'' cs'' hcs'' sd'' hsd'' hEq
              exact hsrc e' (List.mem_cons_self e' rest) cs hcs sd hsd
                (hEq ▸ changeset_dest_bootRoot hcs'' sd'' hsd'')
            · intro e'' he'' hEq
              exact hsrc e' (List.mem_cons_self e' rest) cs hcs sd hsd
                (hEq ▸ confPath_bootRoot_prefix bootRoot schema e'')
          constructor
          · rw [hp2, hest.1]
          · rw [hp1, hest.2]
        · have hest := ihEst e' hmem cs hcs sd hsd
          have hbridge : fsLookup fs' sd.1 = fsLookup fsCur sd.1 := by
            refine hpresA sd.1 ?_ ?_
            · intro cs'' hcs'' sd'' hsd'' hEq
              exact hsrc e' (List.mem_cons_of_mem e hmem) cs hcs sd hsd
                (hEq ▸ changeset_dest_bootRoot hcs'' sd'' hsd'')
            · intro hEq
              exact hsrc e' (List.mem_cons_of_mem e hmem) cs hcs sd hsd
                (hEq ▸ confPath_bootRoot_prefix bootRoot schema e)
          constructor
          · rw [hest.1, hbridge]
          · rw [hest.2, hbridge]

theorem entryVmlinuz_modern {bootRoot : FilePath} {schema : Schema} {e : Entry}
    {vm : FilePath} (hvm : entryVmlinuz bootRoot schema e = some vm)
    (hne : ∀ osr ns, e.schema.getD schema ≠ Schema.legacy osr ns) :
    vm = entryKernelDir bootRoot schema e ++
      [e.kernel.version, "vmlinuz".data] := by
  unfold entryVmlinuz at hvm
  cases hname : e.installedKernelName schema with
  | none => rw [hname] at hvm; cases hvm
  | some n =>
    rw [hname] at hvm
    simp only [Option.map_some', Option.some.injEq] at hvm
    unfold Entry.installedKernelName at hname
    cases heff : e.schema.getD schema with
    | legacy osr ns => exact absurd heff (hne osr ns)
    | blsforme osr =>
      rw [heff] at hname
      simp only [Option.some.injEq] at hname
      rw [← hvm, ← hname]
    | osInfo info =>
      rw [heff] at hname
      simp only [Option.some.injEq] at hname
      rw [← hvm, ← hname]

theorem installResultOf_kernelDir_modern {bootRoot : FilePath}
    {schema : Schema} {e : Entry} {vm : FilePath}
    (hvm : entryVmlinuz bootRoot schema e = some vm)
    (hne : ∀ osr ns, e.schema.getD schema ≠ Schema.legacy osr ns) :
    (installResultOf bootRoot schema e).kernelDir =
      entryKernelDir bootRoot schema e ++ [e.kernel.version] := by
  unfold installResultOf
  rw [hvm]
  show vm.dropLast = _
  rw [entryVmlinuz_modern hvm hne]
  rw [show entryKernelDir bootRoot schema e ++
      [e.kernel.version, "vmlinuz".data] =
      (entryKernelDir bootRoot schema e ++ [e.kernel.version]) ++
        ["vmlinuz".data] by simp]
  exact List.dropLast_concat

theorem kdir_not_prefix_dest {bootRoot : FilePath} {schema : Schema}
    {entries : List Entry} {fs0 fsPre : BootFs} {inst1 : List InstallResult}
    (hkey : ∀ pc ∈ fsPre, pc ∈ fs0 ∨ pc.1 ∈ allDests bootRoot schema entries ∨
      ∃ e' ∈ entries, pc.1 = entryConfPath bootRoot schema e')
    (hpre : ∀ d₁ ∈ allDests bootRoot schema entries,
      ∀ d₂ ∈ allDests bootRoot schema entries, d₁ <+: d₂ → d₁ = d₂)
    (hfs0 : ∀ d ∈ allDests bootRoot schema entries, ∀ pc ∈ fs0,
      d <+: pc.1 → pc.1 = d)
    (hinst : ∀ e' ∈ entries, installResultOf bootRoot schema e' ∈ inst1)
    {e : Entry} (he : e ∈ entries) {cs : List (FilePath × FilePath)}
    (hcs : entryChangeset bootRoot schema e = some cs)
    {sd : FilePath × FilePath} (hsd : sd ∈ cs) {d0 : FilePath}
    (hd0 : d0 ∈ obsoleteKernelDirs fsPre bootRoot schema inst1) :
    ¬ d0 <+: sd.2 := by
  intro hpp
  obtain ⟨ns, sub, hns, hsub, hd0eq, hnotinst⟩ :=
    (obsoleteKernelDirs_mem _ _ _ _ _).mp hd0
  obtain ⟨n, hn_ne, hshape, hleg, hmod⟩ := changeset_dest_shape hcs sd hsd
  have hd0len : d0.length = bootRoot.length + 3 := by
    rw [hd0eq]
    simp
  obtain ⟨pc, hpc, hpcpre, hpclen⟩ := dirSubdirNames_witness hsub
  have hd0split : d0 = (bootRoot ++ ["EFI".data, ns]) ++ [sub] := by
    rw [hd0eq]
    simp
  have hpcpre' : d0 <+: pc.1 := by
    rw [hd0split]
    exact hpcpre
  have hpclen' : d0.length < pc.1.length := by
    have : (bootRoot ++ ["EFI".data, ns]).length = bootRoot.length + 2 := by simp
    omega
  by_cases hlegcase : ∃ osr nsx, e.schema.getD schema = Schema.legacy osr nsx
  · obtain ⟨osr, nsx, heff⟩ := hlegcase
    have hn1 : n.length = 1 := hleg osr nsx heff
    have hdlen : sd.2.length = bootRoot.length + 3 := by
      rw [hshape, entryKernelDir_eq]
      simp [hn1]
    have hd0d : d0 = sd.2 := hpp.eq_of_length (by rw [hd0len, hdlen])
    have hdmem := mem_allDests he hcs hsd
    rcases hkey pc hpc with hf0 | hdall | hcf
    · have hpcd := hfs0 sd.2 hdmem pc hf0 (hd0d ▸ hpcpre')
      have : pc.1.length = d0.length := by rw [hpcd, hd0d]
      omega
    · have hpcd := hpre sd.2 hdmem pc.1 hdall (hd0d ▸ hpcpre')
      have : pc.1.length = d0.length := by rw [← hpcd, hd0d]
      omega
    · obtain ⟨e'', he'', hcf'⟩ := hcf
      rw [hcf', entryConfPath_eq] at hpcpre'
      have hd0shape : d0 = bootRoot ++ "EFI".data :: [ns, sub] := by
        rw [hd0eq]
      rw [hd0shape] at hpcpre'
      exact efi_not_prefix_loader bootRoot _ _ hpcpre'
  · have hne : ∀ osr nsx, e.schema.getD schema ≠ Schema.legacy osr nsx :=
      fun osr nsx hc => hlegcase ⟨osr, nsx, hc⟩
    obtain ⟨name, hneq⟩ := hmod hne
    have hsd2 : sd.2 =
        (entryKernelDir bootRoot schema e ++ [e.kernel.version]) ++ [name] := by
      rw [hshape, hneq]
      simp
    have hkdlen : (entryKernelDir bootRoot schema e ++
        [e.kernel.version]).length = bootRoot.length + 3 := by
      rw [entryKernelDir_eq]
      simp
    have hd0kd : d0 <+: entryKernelDir bootRoot schema e ++
        [e.kernel.version] := by
      refine List.prefix_of_prefix_length_le (hsd2 ▸ hpp) ?_ ?_
      · exact List.prefix_append _ _
      · rw [hd0len, hkdlen]
    have hd0eq2 : d0 = entryKernelDir bootRoot schema e ++
        [e.kernel.version] := hd0kd.eq_of_length (by rw [hd0len, hkdlen])
    have hvmex : ∃ vm, entryVmlinuz bootRoot schema e = some vm := by
      unfold entryChangeset at hcs
      cases hv : entryVmlinuz bootRoot schema e with
      | none => rw [hv] at hcs; cases hcs
      | some vm => exact ⟨vm, rfl⟩
    obtain ⟨vm, hvm⟩ := hvmex
    exact hnotinst _ (hinst e he)
      ((installResultOf_kernelDir_modern hvm hne).trans hd0eq2.symm)

theorem syncEntries_inv {bootRoot : FilePath} {schema : Schema}
    {removable : FilePath → Bool} {fs : BootFs} {cmdline : List Str}
    {entries : List Entry} {exclusions : List Str} {fsPost : BootFs}
    {evs : List WriteEvent} {inst : List InstallResult}
    {confs kdirs : List FilePath}
    (h : syncEntries bootRoot schema removable fs cmdline entries exclusions =
      Except.ok (fsPost, evs, inst, confs, kdirs)) :
    ∃ fs1, exceptFoldlM (syncStep bootRoot schema cmdline exclusions)
        (fs, [], []) entries = Except.ok (fs1, evs, inst) ∧
      cleanupStaleEntries bootRoot schema removable fs1 inst =
        Except.ok (fsPost, confs, kdirs) := by
  unfold syncEntries at h
  cases hf : exceptFoldlM (syncStep bootRoot schema cmdline exclusions)
      (fs, [], []) entries with
  | error err => rw [hf] at h; cases h
  | ok st1 =>
    rw [hf] at h
    obtain ⟨fs1, evsA, instA⟩ := st1
    have hA : (match cleanupStaleEntries bootRoot schema removable fs1 instA with
        | Except.error err => Except.error err
        | Except.ok (fs2, confsA, kdirsA) =>
          Except.ok (fs2, evsA, instA, confsA, kdirsA)) =
        Except.ok (fsPost, evs, inst, confs, kdirs) := h
    clear h
    cases hc : cleanupStaleEntries bootRoot schema removable fs1 instA with
    | error err => rw [hc] at hA; cases hA
    | ok out =>
      rw [hc] at hA
      obtain ⟨fs2, confsA, kdirsA⟩ := out
      have hA' : (Except.ok (fs2, evsA, instA, confsA, kdirsA) :
          Except BootloaderError _) =
          Except.ok (fsPost, evs, inst, confs, kdirs) := hA
      simp only [Except.ok.injEq, Prod.mk.injEq] at hA'
      obtain ⟨h1, h2, h3, h4, h5⟩ := hA'
      subst h1
      subst h2
      subst h3
      subst h4
      subst h5
      exact ⟨fs1, rfl, hc⟩

theorem cleanup_preserves_pairs {bootRoot : FilePath} {schema : Schema}
    {removable : FilePath → Bool} {fs0 fs1 fs2 : BootFs}
    {entries : List Entry} {inst1 : List InstallResult}
    {confs kdirs : List FilePath}
    (hclean : cleanupStaleEntries bootRoot schema removable fs1 inst1 =
      Except.ok (fs2, confs, kdirs))
    (hkey : ∀ pc ∈ fs1, pc ∈ fs0 ∨ pc.1 ∈ allDests bootRoot schema entries ∨
      ∃ e' ∈ entries, pc.1 = entryConfPath bootRoot schema e')
    (hpre : ∀ d₁ ∈ allDests bootRoot schema entries,
      ∀ d₂ ∈ allDests bootRoot schema entries, d₁ <+: d₂ → d₁ = d₂)
    (hfs0 : ∀ d ∈ allDests bootRoot schema entries, ∀ pc ∈ fs0,
      d <+: pc.1 → pc.1 = d)
    (hinst : ∀ e' ∈ entries, installResultOf bootRoot schema e' ∈ inst1)
    {e : Entry} (he : e ∈ entries) {cs : List (FilePath × FilePath)}
    (hcs : entryChangeset bootRoot schema e = some cs)
    {sd : FilePath × FilePath} (hsd : sd ∈ cs)
    (hsrc1 : ¬ bootRoot <+: sd.1) :
    fsLookup fs2 sd.2 = fsLookup fs1 sd.2 ∧
    fsLookup fs2 sd.1 = fsLookup fs1 sd.1 := by
  constructor
  · refine cleanup_lookup hclean sd.2 ?_ ?_
    · intro f hf hEq
      obtain ⟨name, hfEq, -, -, -⟩ := (obsoleteConfs_mem _ _ _ _ _).mp hf
      obtain ⟨t, ht⟩ := changeset_dest_efiShape hcs sd hsd
      have hfshape : f = bootRoot ++ "loader".data :: ["entries".data, name] := by
        rw [hfEq]
        simp [loaderEntriesDir]
      rw [hfshape, ht] at hEq
      exact loader_ne_efi bootRoot _ _ hEq
    · intro d hd
      exact kdir_not_prefix_dest hkey hpre hfs0 hinst he hcs hsd hd
  · refine cleanup_lookup hclean sd.1 ?_ ?_
    · intro f hf hEq
      obtain ⟨name, hfEq, -, -, -⟩ := (obsoleteConfs_mem _ _ _ _ _).mp hf
      apply hsrc1
      rw [← hEq, hfEq]
      exact (List.prefix_append bootRoot _).trans
        (List.prefix_append (loaderEntriesDir bootRoot) [name])
    · intro d hd hpp
      obtain ⟨ns, sub, -, -, hdEq, -⟩ := (obsoleteKernelDirs_mem _ _ _ _ _).mp hd
      apply hsrc1
      refine List.IsPrefix.trans ?_ hpp
      rw [hdEq]
      exact List.prefix_append _ _

theorem syncFold_run2 (bootRoot : FilePath) (schema : Schema)
    (cmdline exclusions : List Str) :
    ∀ (ents : List Entry) (fsCur : BootFs) (evs0 : List WriteEvent)
      (inst0 : List InstallResult),
      (∀ e ∈ ents, ∀ cs, entryChangeset bootRoot schema e = some cs →
        ∀ sd ∈ cs, ¬ bootRoot <+: sd.1) →
      (∀ e ∈ ents, ∃ cs, entryChangeset bootRoot schema e = some cs) →
      (∀ e ∈ ents, ∀ cs, entryChangeset bootRoot schema e = some cs →
        ∀ sd ∈ cs, fsLookup fsCur sd.1 = fsLookup fsCur sd.2) →
      ∃ fsEnd,
        exceptFoldlM (syncStep bootRoot schema cmdline exclusions)
          (fsCur, evs0, inst0) ents = Except.ok (fsEnd,
            evs0 ++ ents.map (fun e =>
              WriteEvent.wroteConf (entryConfPath bootRoot schema e)),
            inst0 ++ ents.map (installResultOf bootRoot schema)) := by
  intro ents
  induction ents with
  | nil =>
    intro fsCur evs0 inst0 _ _ _
    exact ⟨fsCur, by simp [exceptFoldlM]⟩
  | cons e rest ih =>
    intro fsCur evs0 inst0 hsrc hex heq
    obtain ⟨cs, hcs⟩ := hex e (List.mem_cons_self e rest)
    have hvmex : ∃ vm, entryVmlinuz bootRoot schema e = some vm := by
      unfold entryChangeset at hcs
      cases hv : entryVmlinuz bootRoot schema e with
      | none => rw [hv] at hcs; cases hcs
      | some vm => exact ⟨vm, rfl⟩
    obtain ⟨vm, hvm⟩ := hvmex
    have hcs' : entryChangeset bootRoot schema e =
        some (((e.sysroot.getD []) ++ e.kernel.image, vm) ::
          entryInitrdPairs bootRoot schema e) := by
      unfold entryChangeset
      rw [hvm]
      rfl
    have hcseq : cs = ((e.sysroot.getD []) ++ e.kernel.image, vm) ::
        entryInitrdPairs bootRoot schema e := by
      rw [hcs] at hcs'
      exact Option.some.inj hcs'
    have hall : ∀ sd ∈ ((e.sysroot.getD []) ++ e.kernel.image, vm) ::
        entryInitrdPairs bootRoot schema e,
        fsLookup fsCur sd.1 = fsLookup fsCur sd.2 := by
      intro sd hsd
      exact heq e (List.mem_cons_self e rest) cs hcs sd
        (by rw [hcseq]; exact hsd)
    have hinstall := @install_unchanged bootRoot schema fsCur
      (entryFullCmdline cmdline exclusions e) e vm hvm hall
    have hr : ({ loaderConf := entryConfPath bootRoot schema e,
                 kernelDir := vm.dropLast } : InstallResult) =
        installResultOf bootRoot schema e := by
      unfold installResultOf
      rw [hvm]
    have hstep : syncStep bootRoot schema cmdline exclusions
        (fsCur, evs0, inst0) e = Except.ok
          (fsWrite fsCur (entryConfPath bootRoot schema e)
            (generateEntry schema
              (renderPath ((entryKernelDir bootRoot schema e).drop
                bootRoot.length))
              (entryFullCmdline cmdline exclusions e) e),
          evs0 ++ [WriteEvent.wroteConf (entryConfPath bootRoot schema e)],
          inst0 ++ [installResultOf bootRoot schema e]) := by
      unfold syncStep
      rw [hinstall, hr]
    have heq' : ∀ e' ∈ rest, ∀ cs',
        entryChangeset bootRoot schema e' = some cs' → ∀ sd ∈ cs',
        fsLookup (fsWrite fsCur (entryConfPath bootRoot schema e)
          (generateEntry schema
            (renderPath ((entryKernelDir bootRoot schema e).drop
              bootRoot.length))
            (entryFullCmdline cmdline exclusions e) e)) sd.1 =
        fsLookup (fsWrite fsCur (entryConfPath bootRoot schema e)
          (generateEntry schema
            (renderPath ((entryKernelDir bootRoot schema e).drop
              bootRoot.length))
            (entryFullCmdline cmdline exclusions e) e)) sd.2 := by
      intro e' he' cs' hcs'' sd hsd
      have h1 : ¬ sd.1 = entryConfPath bootRoot schema e := by
        intro hEq
        refine hsrc e' (List.mem_cons_of_mem e he') cs' hcs'' sd hsd ?_
        rw [hEq]
        exact confPath_bootRoot_prefix bootRoot schema e
      have h2 : ¬ sd.2 = entryConfPath bootRoot schema e :=
        fun hEq => confPath_ne_dest hcs'' sd hsd hEq.symm
      rw [fsLookup_fsWrite, fsLookup_fsWrite, if_neg h1, if_neg h2]
      exact heq e' (List.mem_cons_of_mem e he') cs' hcs'' sd hsd
    obtain ⟨fsEnd, hfold⟩ := ih _
      (evs0 ++ [WriteEvent.wroteConf (entryConfPath bootRoot schema e)])
      (inst0 ++ [installResultOf bootRoot schema e])
      (fun e' he' => hsrc e' (List.mem_cons_of_mem e he'))
      (fun e' he' => hex e' (List.mem_cons_of_mem e he'))
      heq'
    refine ⟨fsEnd, ?_⟩
    simp only [exceptFoldlM]
    rw [hstep]
    show exceptFoldlM (syncStep bootRoot schema cmdline exclusions)
        (fsWrite fsCur (entryConfPath bootRoot schema e)
          (generateEntry schema
            (renderPath ((entryKernelDir bootRoot schema e).drop
              bootRoot.length))
            (entryFullCmdline cmdline exclusions e) e),
        evs0 ++ [WriteEvent.wroteConf (entryConfPath bootRoot schema e)],
        inst0 ++ [installResultOf bootRoot schema e]) rest = _
    rw [hfold]
    simp

/-! ## Claim theorems: systemd-boot synchronisation -/

/-- C1 counterexample: on the concrete scenario (one entry, kernel plus
initrd already synchronised by the first run) the second run still performs a
write: the entry's `.conf` is unconditionally rewritten. -/
theorem claim_C1_counterexample :
    c1events2 =
      [WriteEvent.wroteConf
        ["boot".data, "loader".data, "entries".data, "aerynos-6.9.0.conf".data]] ∧
    c1events2 ≠ [] := by
  exact ⟨rfl, by decide⟩

/-- C1: running `sync_entries` a second time over the filesystem produced by a
first successful run, with identical configuration and entries, copies no
kernel or initrd file again — the content comparison sees every source equal
to its destination — but it still rewrites every entry's `.conf`
unconditionally, so the second run's write events are exactly one conf write
per entry (and the install results are the same as the first run's). The
sanity hypotheses say the copy sources live outside the boot partition, the
destinations are distinct and prefix-free, and no initial file sits strictly
below a destination. -/
theorem claim_C1_second_sync {bootRoot : FilePath} {schema : Schema}
    {removable : FilePath → Bool} {fs0 : BootFs} {cmdline : List Str}
    {entries : List Entry} {exclusions : List Str} {fsPost : BootFs}
    {evs1 : List WriteEvent} {inst1 : List InstallResult}
    {confs kdirs : List FilePath}
    (hrun1 : syncEntries bootRoot schema removable fs0 cmdline entries
      exclusions = Except.ok (fsPost, evs1, inst1, confs, kdirs))
    (hsrc : ∀ e ∈ entries, ∀ cs, entryChangeset bootRoot schema e = some cs →
      ∀ sd ∈ cs, ¬ bootRoot <+: sd.1)
    (hex : ∀ e ∈ entries, ∃ cs, entryChangeset bootRoot schema e = some cs)
    (hnd : (allDests bootRoot schema entries).Nodup)
    (hpre : ∀ d₁ ∈ allDests bootRoot schema entries,
      ∀ d₂ ∈ allDests bootRoot schema entries, d₁ <+: d₂ → d₁ = d₂)
    (hfs0 : ∀ d ∈ allDests bootRoot schema entries, ∀ pc ∈ fs0,
      d <+: pc.1 → pc.1 = d) :
    ∃ fsEnd confs2 kdirs2,
      syncEntries bootRoot schema removable fsPost cmdline entries exclusions =
        Except.ok (fsEnd,
          entries.map (fun e =>
            WriteEvent.wroteConf (entryConfPath bootRoot schema e)),
          inst1, confs2, kdirs2) := by
  obtain ⟨fs1, hfold1, hclean1⟩ := syncEntries_inv hrun1
  obtain ⟨hinstEq, hpresRun1, hkey, hest⟩ := syncFold_run1 bootRoot schema
    cmdline exclusions entries fs0 [] [] fs1 evs1 inst1 hfold1 hsrc hnd
  have hinstEq' : inst1 = entries.map (installResultOf bootRoot schema) := by
    simpa using hinstEq
  have hinstMem : ∀ e' ∈ entries,
      installResultOf bootRoot schema e' ∈ inst1 := by
    intro e' he'
    rw [hinstEq']
    exact List.mem_map_of_mem _ he'
  have heqPost : ∀ e ∈ entries, ∀ cs,
      entryChangeset bootRoot schema e = some cs → ∀ sd ∈ cs,
      fsLookup fsPost sd.1 = fsLookup fsPost sd.2 := by
    intro e he cs hcs sd hsd
    have hpair := hest e he cs hcs sd hsd
    have hcp := cleanup_preserves_pairs hclean1 hkey hpre hfs0 hinstMem he
      hcs hsd (hsrc e he cs hcs sd hsd)
    rw [hcp.1, hcp.2, hpair.1, hpair.2]
  obtain ⟨fsEnd, hfold2⟩ := syncFold_run2 bootRoot schema cmdline exclusions
    entries fsPost [] [] hsrc hex heqPost
  refine ⟨(obsoleteKernelDirs fsEnd bootRoot schema
      (entries.map (installResultOf bootRoot schema))).foldl
        (fun f d => if removable d then fsRemoveTree f d else f)
        ((obsoleteConfs fsEnd bootRoot schema
          (entries.map (installResultOf bootRoot schema))).foldl
            (fun f c => if removable c then fsRemoveFile f c else f) fsEnd),
    obsoleteConfs fsEnd bootRoot schema
      (entries.map (installResultOf bootRoot schema)),
    obsoleteKernelDirs fsEnd bootRoot schema
      (entries.map (installResultOf bootRoot schema)), ?_⟩
  unfold syncEntries
  rw [hfold2, hinstEq']
  rfl

theorem claim_C1_witness :
    ∃ fsEnd confs2 kdirs2,
      syncEntries bootRootC1 schemaAeryn (fun _ => true) c1fs1 cmdlineC1
          [entryC2] [] =
        Except.ok (fsEnd,
          [entryC2].map (fun e =>
            WriteEvent.wroteConf (entryConfPath bootRootC1 schemaAeryn e)),
          [installResultOf bootRootC1 schemaAeryn entryC2],
          confs2, kdirs2) :=
  claim_C1_second_sync
    (show syncEntries bootRootC1 schemaAeryn (fun _ => true) fsC1 cmdlineC1
        [entryC2] [] =
      Except.ok (c1fs1,
        [WriteEvent.copied ["boot".data, "EFI".data, "aerynos".data,
          "6.9.0".data, "vmlinuz".data],
         WriteEvent.copied ["boot".data, "EFI".data, "aerynos".data,
          "6.9.0".data, "initrd".data],
         WriteEvent.wroteConf ["boot".data, "loader".data, "entries".data,
          "aerynos-6.9.0.conf".data]],
        [installResultOf bootRootC1 schemaAeryn entryC2], [], []) from rfl)
    (by
      intro e he cs hcs
      rw [List.mem_singleton] at he
      subst he
      have hcseq := Option.some.inj hcs
      subst hcseq
      decide)
    (by
      intro e he
      rw [List.mem_singleton] at he
      subst he
      exact ⟨_, rfl⟩)
    (by decide)
    (by decide)
    (by decide)

/-- C5: `cleanup_stale_entries` always returns `Ok`, for every filesystem
state and every deletion oracle; the attempted deletions are exactly the
loader-entries files whose name starts with a prefix in the prefix set and
that are not in the installed loader-conf list, and exactly the kernel
directories under the namespace set not in the installed kernel-dir list; the
attempt lists do not depend on the oracle, so one failed (skipped) deletion
never aborts the remaining ones or the call. -/
theorem claim_C5_cleanup (bootRoot : FilePath) (schema : Schema)
    (removable : FilePath → Bool) (fs : BootFs)
    (installed : List InstallResult) :
    ∃ fs' confs kdirs,
      cleanupStaleEntries bootRoot schema removable fs installed =
        Except.ok (fs', confs, kdirs) ∧
      confs = obsoleteConfs fs bootRoot schema installed ∧
      kdirs = obsoleteKernelDirs fs bootRoot schema installed ∧
      (∀ f : FilePath, f ∈ confs ↔
        ∃ name, f = loaderEntriesDir bootRoot ++ [name] ∧
          name ∈ dirEntryNames fs (loaderEntriesDir bootRoot) ∧
          (∃ pre ∈ cleanupPrefixSet schema, pre.isPrefixOf name = true) ∧
          ∀ r ∈ installed, r.loaderConf ≠ f) ∧
      (∀ d : FilePath, d ∈ kdirs ↔
        ∃ ns sub, ns ∈ cleanupNamespaces schema ∧
          sub ∈ dirSubdirNames fs (bootRoot ++ ["EFI".data, ns]) ∧
          d = bootRoot ++ ["EFI".data, ns, sub] ∧
          ∀ r ∈ installed, r.kernelDir ≠ d) := by
  refine ⟨_, _, _, rfl, rfl, rfl, ?_, ?_⟩
  · intro f
    simp only [obsoleteConfs, cleanupLoaderFiles, List.mem_filter, List.mem_map,
      Bool.not_eq_true', List.any_eq_false, List.any_eq_true, beq_iff_eq]
    constructor
    · rintro ⟨⟨name, ⟨hnm, hpre⟩, rfl⟩, hnot⟩
      exact ⟨name, rfl, hnm, hpre, fun r hr hEq => hnot r hr hEq⟩
    · rintro ⟨name, rfl, hnm, hpre, hnot⟩
      exact ⟨⟨name, ⟨hnm, hpre⟩, rfl⟩, fun r hr hEq => hnot r hr hEq⟩
  · intro d
    simp only [obsoleteKernelDirs, cleanupKernelDirs, List.mem_filter,
      List.mem_flatten, List.mem_map, Bool.not_eq_true', List.any_eq_false,
      List.any_eq_true, beq_iff_eq]
    constructor
    · rintro ⟨⟨l, ⟨ns, hns, rfl⟩, hd⟩, hnot⟩
      obtain ⟨sub, hsub, rfl⟩ := List.mem_map.mp hd
      exact ⟨ns, sub, hns, hsub, rfl, fun r hr hEq => hnot r hr hEq⟩
    · rintro ⟨ns, sub, hns, hsub, rfl, hnot⟩
      refine ⟨⟨(dirSubdirNames fs (bootRoot ++ ["EFI".data, ns])).map
        (fun d => bootRoot ++ ["EFI".data, ns, d]), ⟨ns, hns, rfl⟩, ?_⟩,
        fun r hr hEq => hnot r hr hEq⟩
      exact List.mem_map.mpr ⟨sub, hsub, rfl⟩

end Blsforme
